/-
Verification of the BG3calculator probability core.

Shallow embedding of the repository's discrete-probability-distribution
algebra (packages/prob) and the attack/damage domain model
(packages/domain).  JavaScript numbers are modelled by ℚ (all arithmetic
performed by the source on the reachable inputs is field arithmetic,
floor/ceil, and comparisons, which ℚ models exactly; the IEEE rounding of
the source is not modelled, so every "within epsilon" statement of the
spec becomes an exact statement here).  Outcomes of distributions are
integers (ℤ), as produced by the dice parser.  The near-zero pruning
threshold PROBABILITY_EPSILON = 1e-15 of the source is kept as the exact
rational 1/10^15.  Functions of the source that `throw` are embedded as
`Except String`; functions that are total in the source are total here.
-/
import Mathlib

namespace BG3Calc

/-- PROBABILITY_EPSILON of the source: near-zero entries with |p| ≤ this
threshold are skipped during dense convolution and dropped when a dense
buffer is converted back to sparse form. -/
def probEps : ℚ := 1 / 10 ^ 15

/-- A sparse probability distribution: the `entries` list of the source
(`outcome`, `probability`) pairs.  The source's `map` field is the same
data and its `totalProbability` field is always the sum of the entries'
probabilities (computed exactly so by `normalize`), so both are modelled
as derived functions. -/
structure ProbabilityDistribution where
  entries : List (ℤ × ℚ)
deriving DecidableEq, Repr, Inhabited

/-- The `totalProbability` field of the source: the sum of the (merged,
sorted) entries' probabilities. -/
def totalProbability (d : ProbabilityDistribution) : ℚ :=
  (d.entries.map (fun e => e.2)).sum

/-- Insert one (outcome, probability) pair into an outcome-sorted list of
entries, merging probabilities on an outcome collision.  Folding this over
an input list is extensionally the source's `normalize`: accumulate into a
Map keyed by outcome (summing collisions in encounter order) and sort the
result by outcome ascending. -/
def insertEntry : List (ℤ × ℚ) → ℤ → ℚ → List (ℤ × ℚ)
  | [], o, p => [(o, p)]
  | (o', p') :: rest, o, p =>
    if o < o' then (o, p) :: (o', p') :: rest
    else if o = o' then (o', p' + p) :: rest
    else (o', p') :: insertEntry rest o p

/-- `normalize` of the source: merge duplicate outcomes (summing their
probabilities) and sort entries by outcome ascending. -/
def normalize (entries : List (ℤ × ℚ)) : ProbabilityDistribution :=
  ⟨entries.foldl (fun acc e => insertEntry acc e.1 e.2) []⟩

/-- A dense distribution: `values[i]` is the probability of outcome
`offset + i` (the source's Float64Array working buffer). -/
structure DenseDistribution where
  offset : ℤ
  values : List ℚ
deriving DecidableEq, Repr, Inhabited

/-- `toDense` of the source: allocate a zero buffer spanning
[first outcome, last outcome] and write each entry's probability at its
index (an out-of-range write into a JS Float64Array is silently ignored,
as is `List.set` past the end; entries of an actual distribution are
always in range).  The source reads `entries[0]` and `entries[length-1]`
and falls back to the one-slot zero buffer when either is undefined,
which happens exactly when the entry list is empty. -/
def toDense (d : ProbabilityDistribution) : DenseDistribution :=
  if d.entries.isEmpty then ⟨0, [0]⟩
  else
    let first := (d.entries.head?.getD (0, 0)).1
    let last := (d.entries.getLast?.getD (0, 0)).1
    let size := (last - first + 1).toNat
    ⟨first, d.entries.foldl (fun v e => v.set (e.1 - first).toNat e.2) (List.replicate size 0)⟩

/-- Zero out a value the dense loops of the source skip: those with
|p| ≤ PROBABILITY_EPSILON. -/
def epsSkip (p : ℚ) : ℚ := if |p| ≤ probEps then 0 else p

/-- `convolveDense` of the source: output buffer of size |a|+|b|−1 whose
k-th slot accumulates products of input slots with indices summing to k,
with near-zero input slots skipped. -/
def convolveDense (left right : DenseDistribution) : DenseDistribution :=
  ⟨left.offset + right.offset,
    (List.range (left.values.length + right.values.length - 1)).map (fun k =>
      ((List.range left.values.length).map (fun i =>
        if i ≤ k then epsSkip (left.values.getD i 0) * epsSkip (right.values.getD (k - i) 0)
        else 0)).sum)⟩

/-- `fromDense` of the source: drop near-zero slots, rebuild sparse
entries at `offset + index`, and normalize. -/
def fromDense (dd : DenseDistribution) : ProbabilityDistribution :=
  normalize ((List.range dd.values.length).filterMap (fun i =>
    let p := dd.values.getD i 0
    if |p| ≤ probEps then none else some (dd.offset + i, p)))

/-- `fromEntries` of the source. -/
def fromEntries (entries : List (ℤ × ℚ)) : ProbabilityDistribution :=
  normalize entries

/-- `constant` of the source: probability 1 at a single outcome. -/
def constant (value : ℤ) : ProbabilityDistribution :=
  normalize [(value, 1)]

/-- `uniformDie` of the source, after its positive-integer validation has
passed (`sides` is ℕ-typed here; the runtime check `sides ≥ 1` is kept in
`uniformDieE`). -/
def uniformDie (sides : ℕ) : ProbabilityDistribution :=
  normalize ((List.range sides).map (fun (i : ℕ) => ((i : ℤ) + 1, 1 / (sides : ℚ))))

/-- `uniformDie` with its boundary validation (`sides must be a positive
integer`); the non-integer half of the check is vacuous for the ℕ-typed
sides produced by the dice parser. -/
def uniformDieE (sides : ℕ) : Except String ProbabilityDistribution :=
  if sides = 0 then .error "sides must be a positive integer" else .ok (uniformDie sides)

/-- `shift` of the source: translate every outcome. -/
def shift (d : ProbabilityDistribution) (amount : ℤ) : ProbabilityDistribution :=
  normalize (d.entries.map (fun e => (e.1 + amount, e.2)))

/-- `mapOutcomes` of the source: transform outcomes, probabilities of
colliding results summed by `normalize`. -/
def mapOutcomes (d : ProbabilityDistribution) (transform : ℤ → ℤ) : ProbabilityDistribution :=
  normalize (d.entries.map (fun e => (transform e.1, e.2)))

/-- `convolve` of the source: dense convolution with near-zero pruning. -/
def convolve (left right : ProbabilityDistribution) : ProbabilityDistribution :=
  fromDense (convolveDense (toDense left) (toDense right))

/-- `repeatConvolve` of the source with its non-negative-integer `times`
validation already expressed by the ℕ type: `times = 0` returns
`constant 0`; otherwise the dense base is convolved onto a unit buffer
`times` times. -/
def repeatConvolve (base : ProbabilityDistribution) (times : ℕ) : ProbabilityDistribution :=
  if times = 0 then constant 0
  else fromDense ((fun r => convolveDense r (toDense base))^[times] ⟨0, [1]⟩)

/-- `expectation` of the source: Σ outcome · probability. -/
def expectation (d : ProbabilityDistribution) : ℚ :=
  (d.entries.map (fun e => (e.1 : ℚ) * e.2)).sum

/-- `probabilityAtLeast` of the source: total probability of outcomes at
or above the (possibly fractional) threshold. -/
def probabilityAtLeast (d : ProbabilityDistribution) (threshold : ℚ) : ℚ :=
  ((d.entries.filter (fun e => threshold ≤ (e.1 : ℚ))).map (fun e => e.2)).sum

/-- The entry walk of the source's `maxOfIndependent`: each outcome gets
cdf^count − previousCdf^count, with the running cdf threaded through. -/
def maxAux (count : ℕ) : List (ℤ × ℚ) → ℚ → List (ℤ × ℚ)
  | [], _ => []
  | (o, p) :: rest, previousCdf =>
    let currentCdf := previousCdf + p
    (o, currentCdf ^ count - previousCdf ^ count) :: maxAux count rest currentCdf

/-- `maxOfIndependent` of the source after its positive-integer `count`
validation (kept in `maxOfIndependentE`): count = 1 returns the input
unchanged, otherwise CDF differencing. -/
def maxOfIndependent (d : ProbabilityDistribution) (count : ℕ) : ProbabilityDistribution :=
  if count = 1 then d else fromEntries (maxAux count d.entries 0)

/-- `maxOfIndependent` with the source's boundary validation (`count must
be a positive integer`) on a raw numeric count. -/
def maxOfIndependentE (d : ProbabilityDistribution) (count : ℚ) :
    Except String ProbabilityDistribution :=
  if ¬(count.den = 1 ∧ 0 < count) then .error "count must be a positive integer"
  else .ok (maxOfIndependent d count.num.toNat)

/-- The entry walk of the source's `minOfIndependent`:
(1 − previousCdf)^count − (1 − cdf)^count. -/
def minAux (count : ℕ) : List (ℤ × ℚ) → ℚ → List (ℤ × ℚ)
  | [], _ => []
  | (o, p) :: rest, previousCdf =>
    let currentCdf := previousCdf + p
    (o, (1 - previousCdf) ^ count - (1 - currentCdf) ^ count) :: minAux count rest currentCdf

/-- `minOfIndependent` of the source after its positive-integer `count`
validation (kept in `minOfIndependentE`). -/
def minOfIndependent (d : ProbabilityDistribution) (count : ℕ) : ProbabilityDistribution :=
  if count = 1 then d else fromEntries (minAux count d.entries 0)

/-- `minOfIndependent` with the source's boundary validation. -/
def minOfIndependentE (d : ProbabilityDistribution) (count : ℚ) :
    Except String ProbabilityDistribution :=
  if ¬(count.den = 1 ∧ 0 < count) then .error "count must be a positive integer"
  else .ok (minOfIndependent d count.num.toNat)

/-- `ExpressionComponent` of the dice parser: a signed dice term or a
constant term.  `count` and `sides` are ℕ-typed as produced by the parser
(which guarantees both positive); `sign` is the parser's 1 or −1; `value`
is the parser's signed integer. -/
inductive ExpressionComponent where
  | dice (count : ℕ) (sides : ℕ) (sign : ℤ)
  | const (value : ℤ)
deriving DecidableEq, Repr, Inhabited

/-- A parser-valid expression: every dice term has at least one die with
at least one side, and sign 1 or −1 (the shape `parseDiceExpression`
guarantees). -/
def ExpressionWF (components : List ExpressionComponent) : Prop :=
  ∀ c ∈ components, match c with
    | .dice count sides sign => 1 ≤ count ∧ 1 ≤ sides ∧ (sign = 1 ∨ sign = -1)
    | .const _ => True

/-- `AdvantageState` of the source. -/
inductive AdvantageState where
  | normal
  | advantage
  | disadvantage
deriving DecidableEq, Repr, Inhabited

/-- `DamageModifier` of the source. -/
inductive DamageModifier where
  | normal
  | resistant
  | vulnerable
  | immune
deriving DecidableEq, Repr, Inhabited

/-- `DamageDiceRollMode` of the source. -/
inductive DamageDiceRollMode where
  | normal
  | advantage
  | disadvantage
deriving DecidableEq, Repr, Inhabited

/-- `AttackRollRuleConfig` of the source.  `dieSides` is ℕ-typed; the
runtime validation `validateAttackRules` (integer, > 1) remains the check
`2 ≤ dieSides` in `calculateAttackOutcomeProbabilities`.  The source's
face Sets are modelled by lists with membership lookup. -/
structure AttackRollRuleConfig where
  dieSides : ℕ
  autoMissFaces : List ℤ
  autoCritFaces : List ℤ
deriving DecidableEq, Repr, Inhabited

/-- `AttackCheckInput` of the source; the optional `halflingLucky` flag is
a Bool (the source tests `=== true`). -/
structure AttackCheckInput where
  armorClass : ℚ
  attackBonusExpression : List ExpressionComponent
  advantageState : AdvantageState
  rules : AttackRollRuleConfig
  halflingLucky : Bool
deriving DecidableEq, Repr, Inhabited

/-- `AttackOutcomeProbabilities` of the source. -/
structure AttackOutcomeProbabilities where
  miss : ℚ
  hit : ℚ
  critical : ℚ
deriving DecidableEq, Repr, Inhabited

/-- `clamp01` of the source. -/
def clamp01 (value : ℚ) : ℚ := max 0 (min 1 value)

/-- The index-0-padded per-face probability array of a single attack die:
`buildSingleDieDistribution` of the source.  Without `halflingLucky` every
face 1..sides has probability 1/sides; with it face 1 keeps p² and faces
2..sides get p + p² (p = 1/sides). -/
def buildSingleDieDistribution (dieSides : ℕ) (halflingLucky : Bool) : List ℚ :=
  if halflingLucky then
    0 :: (1 / (dieSides : ℚ)) * (1 / (dieSides : ℚ)) ::
      List.replicate (dieSides - 1) (1 / (dieSides : ℚ) + (1 / (dieSides : ℚ)) * (1 / (dieSides : ℚ)))
  else
    0 :: List.replicate dieSides (1 / (dieSides : ℚ))

/-- Partial sum of the single-die array over faces 1..k (the incremental
CDF accumulation of the source's `probabilityOfFace` loop). -/
def sumTo (singleDieDistribution : List ℚ) (k : ℕ) : ℚ :=
  ((List.range k).map (fun i => singleDieDistribution.getD (i + 1) 0)).sum

/-- `probabilityOfFace` of the source.  The loop runs faces 1..length−1,
breaking at the first face ≥ the requested one, so the accumulated CDFs
are the partial sums written here (`min`/`max` express the loop's
first-iteration and end-of-array clamping). -/
def probabilityOfFace (singleDieDistribution : List ℚ) (face : ℕ)
    (advantageState : AdvantageState) : ℚ :=
  match advantageState with
  | .normal => singleDieDistribution.getD face 0
  | .advantage =>
    let cdfAtFace := sumTo singleDieDistribution
      (min (max face 1) (singleDieDistribution.length - 1))
    let cdfBeforeFace := sumTo singleDieDistribution
      (min (face - 1) (singleDieDistribution.length - 1))
    cdfAtFace * cdfAtFace - cdfBeforeFace * cdfBeforeFace
  | .disadvantage =>
    let cdfAtFace := sumTo singleDieDistribution
      (min (max face 1) (singleDieDistribution.length - 1))
    let cdfBeforeFace := sumTo singleDieDistribution
      (min (face - 1) (singleDieDistribution.length - 1))
    let atLeastFace := 1 - cdfBeforeFace
    let aboveFace := 1 - cdfAtFace
    atLeastFace * atLeastFace - aboveFace * aboveFace

/-- `buildAttackBonusDistribution` of the source: fold the expression's
terms, shifting by constants and convolving repeated uniform dice
(sign-flipped via `mapOutcomes` when negative); a zero-sided die errors
inside `uniformDie`. -/
def buildAttackBonusDistribution (components : List ExpressionComponent) :
    Except String ProbabilityDistribution :=
  components.foldlM (fun distribution component =>
    match component with
    | .const value => .ok (shift distribution value)
    | .dice count sides sign => do
      let die ← uniformDieE sides
      let diceDistribution := repeatConvolve die count
      let diceDistribution :=
        if sign < 0 then mapOutcomes diceDistribution (fun o => -o) else diceDistribution
      .ok (convolve distribution diceDistribution)) (constant 0)

/-- One iteration of the face loop of
`calculateAttackOutcomeProbabilities` (loop index `i`, face `i + 1`):
auto-miss faces feed `miss`, then auto-crit faces feed `critical`,
otherwise the face's chance splits between `hit` and `miss` by the chance
that the attack-bonus distribution reaches armorClass − face. -/
def attackFaceStep (input : AttackCheckInput) (abd : ProbabilityDistribution)
    (sdd : List ℚ) (acc : AttackOutcomeProbabilities) (i : ℕ) : AttackOutcomeProbabilities :=
  let face := i + 1
  let chance := probabilityOfFace sdd face input.advantageState
  if (face : ℤ) ∈ input.rules.autoMissFaces then
    ⟨acc.miss + chance, acc.hit, acc.critical⟩
  else if (face : ℤ) ∈ input.rules.autoCritFaces then
    ⟨acc.miss, acc.hit, acc.critical + chance⟩
  else
    let hitChanceGivenFace := probabilityAtLeast abd (input.armorClass - (face : ℚ))
    ⟨acc.miss + chance * (1 - hitChanceGivenFace),
     acc.hit + chance * hitChanceGivenFace, acc.critical⟩

/-- `calculateAttackOutcomeProbabilities` of the source: validate the rule
config, build the attack-bonus distribution, then classify each face of
the (possibly halfling-lucky) d20 under the advantage state. -/
def calculateAttackOutcomeProbabilities (input : AttackCheckInput) :
    Except String AttackOutcomeProbabilities :=
  if input.rules.dieSides < 2 then .error "dieSides must be an integer greater than 1"
  else do
    let abd ← buildAttackBonusDistribution input.attackBonusExpression
    let sdd := buildSingleDieDistribution input.rules.dieSides input.halflingLucky
    .ok ((List.range input.rules.dieSides).foldl (attackFaceStep input abd sdd) ⟨0, 0, 0⟩)

/-- `DamageModel` of the source.  `criticalDiceMultiplier` is a raw ℚ
(validated inside `buildDamageDistribution`); the three optional numeric
fields are raw ℚ options. -/
structure DamageModel where
  expression : List ExpressionComponent
  criticalDiceMultiplier : ℚ
  modifier : DamageModifier
  diceRollMode : Option DamageDiceRollMode
  damageRollCount : Option ℚ
  rerollLowThreshold : Option ℚ
deriving DecidableEq, Repr, Inhabited

/-- `AttackDamageRequest` of the source. -/
structure AttackDamageRequest where
  attack : AttackCheckInput
  damage : DamageModel
deriving DecidableEq, Repr, Inhabited

/-- `AttackDamageResult` of the source. -/
structure AttackDamageResult where
  probabilities : AttackOutcomeProbabilities
  hitDamageDistribution : ProbabilityDistribution
  criticalDamageDistribution : ProbabilityDistribution
  totalDamageDistribution : ProbabilityDistribution
  expectedDamageOnHit : ℚ
  expectedDamageOnCritical : ℚ
  expectedDamagePerAttack : ℚ
deriving DecidableEq, Repr, Inhabited

/-- `buildRerollLowDieDistribution` of the source: an undefined or
non-positive threshold gives the plain uniform die; otherwise the floored
threshold is clamped to the side count, low faces get t/sides² and the
rest 1/sides + t/sides². -/
def buildRerollLowDieDistribution (sides : ℕ) (rerollLowThreshold : Option ℚ) :
    Except String ProbabilityDistribution :=
  match rerollLowThreshold with
  | none => uniformDieE sides
  | some t =>
    if t ≤ 0 then uniformDieE sides
    else
      let threshold : ℤ := min (sides : ℤ) ⌊t⌋
      .ok (fromEntries ((List.range sides).map (fun (i : ℕ) =>
        let face := (i : ℤ) + 1
        if face ≤ threshold then (face, (threshold : ℚ) / ((sides : ℚ) * sides))
        else (face, 1 / (sides : ℚ) + (threshold : ℚ) / ((sides : ℚ) * sides)))))

/-- `applyDamageModifier` of the source: floor the raw damage to a
non-negative integer, then apply immunity/resistance/vulnerability. -/
def applyDamageModifier (rawDamage : ℚ) (modifier : DamageModifier) : ℤ :=
  let sanitized : ℤ := max 0 ⌊rawDamage⌋
  match modifier with
  | .immune => 0
  | .resistant => ⌊(sanitized : ℚ) / 2⌋
  | .vulnerable => sanitized * 2
  | .normal => sanitized

/-- `buildNonCriticalDamageModel` of the source: force multiplier 1. -/
def buildNonCriticalDamageModel (model : DamageModel) : DamageModel :=
  { model with criticalDiceMultiplier := 1 }

/-- `buildCriticalDamageModel` of the source (keeps the model's own
multiplier). -/
def buildCriticalDamageModel (model : DamageModel) : DamageModel :=
  { model with criticalDiceMultiplier := model.criticalDiceMultiplier }

/-- `buildDamageDistribution` of the source: validate the multiplier as a
positive integer, then fold the expression — constants shift the running
distribution, dice terms contribute count × multiplier copies of the
(possibly reroll-low) single-die distribution, sign-flipped when
negative. -/
def buildDamageDistribution (expression : List ExpressionComponent)
    (criticalDiceMultiplier : ℚ) (rerollLowThreshold : Option ℚ) :
    Except String ProbabilityDistribution :=
  if ¬(criticalDiceMultiplier.den = 1 ∧ 0 < criticalDiceMultiplier) then
    .error "criticalDiceMultiplier must be a positive integer"
  else
    expression.foldlM (fun distribution component =>
      match component with
      | .const value => .ok (shift distribution value)
      | .dice count sides sign => do
        let effectiveCount := count * criticalDiceMultiplier.num.toNat
        let dieDistribution ← buildRerollLowDieDistribution sides rerollLowThreshold
        let diceDistribution := repeatConvolve dieDistribution effectiveCount
        let diceDistribution :=
          if sign < 0 then mapOutcomes diceDistribution (fun o => -o) else diceDistribution
        .ok (convolve distribution diceDistribution)) (constant 0)

/-- `applyModifierToDistribution` of the source. -/
def applyModifierToDistribution (distribution : ProbabilityDistribution)
    (modifier : DamageModifier) : ProbabilityDistribution :=
  mapOutcomes distribution (fun outcome => applyDamageModifier (outcome : ℚ) modifier)

/-- `resolveDiceRollMode` of the source: undefined means normal. -/
def resolveDiceRollMode (mode : Option DamageDiceRollMode) : DamageDiceRollMode :=
  mode.getD .normal

/-- `resolveDamageRollCount` of the source: an explicit count is floored
and clamped up to 1 (no error is raised); otherwise 1 for normal mode and
2 for advantage/disadvantage. -/
def resolveDamageRollCount (mode : DamageDiceRollMode) (count : Option ℚ) : ℕ :=
  match count with
  | some c => (max 1 ⌊c⌋).toNat
  | none => if mode = .normal then 1 else 2

/-- `applyDamageDiceRollMode` of the source: normal mode or a roll count
of at most 1 leaves the distribution unchanged; otherwise the min/max
order statistic of `rollCount` independent full rolls. -/
def applyDamageDiceRollMode (distribution : ProbabilityDistribution)
    (mode : DamageDiceRollMode) (rollCount : ℕ) : ProbabilityDistribution :=
  match mode with
  | .normal => distribution
  | .disadvantage =>
    if rollCount ≤ 1 then distribution else minOfIndependent distribution rollCount
  | .advantage =>
    if rollCount ≤ 1 then distribution else maxOfIndependent distribution rollCount

/-- `calculateAttackDamage` of the source: attack probabilities, the two
independently built branch distributions (multiplier 1 and the full one)
through roll mode then damage modifier, then the miss/hit/critical
weighted combination and the expectation report. -/
def calculateAttackDamage (request : AttackDamageRequest) :
    Except String AttackDamageResult := do
  let probabilities ← calculateAttackOutcomeProbabilities request.attack
  let diceRollMode := resolveDiceRollMode request.damage.diceRollMode
  let damageRollCount := resolveDamageRollCount diceRollMode request.damage.damageRollCount
  let nonCriticalDamageModel := buildNonCriticalDamageModel request.damage
  let criticalDamageModel := buildCriticalDamageModel request.damage
  let rawHitBase ← buildDamageDistribution nonCriticalDamageModel.expression
    nonCriticalDamageModel.criticalDiceMultiplier nonCriticalDamageModel.rerollLowThreshold
  let rawHitDistribution := applyDamageDiceRollMode rawHitBase diceRollMode damageRollCount
  let rawCritBase ← buildDamageDistribution criticalDamageModel.expression
    criticalDamageModel.criticalDiceMultiplier criticalDamageModel.rerollLowThreshold
  let rawCritDistribution := applyDamageDiceRollMode rawCritBase diceRollMode damageRollCount
  let hitDamageDistribution := applyModifierToDistribution rawHitDistribution request.damage.modifier
  let criticalDamageDistribution :=
    applyModifierToDistribution rawCritDistribution request.damage.modifier
  let weightedEntries : List (ℤ × ℚ) :=
    (0, probabilities.miss) ::
      (hitDamageDistribution.entries.map (fun e => (e.1, e.2 * probabilities.hit)) ++
        criticalDamageDistribution.entries.map (fun e => (e.1, e.2 * probabilities.critical)))
  let totalDamageDistribution := fromEntries weightedEntries
  let expectedDamageOnHit := expectation hitDamageDistribution
  let expectedDamageOnCritical := expectation criticalDamageDistribution
  .ok
    { probabilities := probabilities
      hitDamageDistribution := hitDamageDistribution
      criticalDamageDistribution := criticalDamageDistribution
      totalDamageDistribution := totalDamageDistribution
      expectedDamageOnHit := expectedDamageOnHit
      expectedDamageOnCritical := expectedDamageOnCritical
      expectedDamagePerAttack :=
        probabilities.hit * expectedDamageOnHit +
          probabilities.critical * expectedDamageOnCritical }

/-- `AttackDamagePlanStep` of the source (`repeat'` is the source's
optional `repeat` field). -/
structure AttackDamagePlanStep where
  request : AttackDamageRequest
  repeat' : Option ℚ
deriving DecidableEq, Repr, Inhabited

/-- `AttackDamagePlanStepResult` of the source. -/
structure AttackDamagePlanStepResult where
  request : AttackDamageRequest
  repeat' : ℕ
  result : AttackDamageResult
  totalDamageDistribution : ProbabilityDistribution
  expectedDamageTotal : ℚ
deriving DecidableEq, Repr, Inhabited

/-- `AttackDamagePlanResult` of the source. -/
structure AttackDamagePlanResult where
  steps : List AttackDamagePlanStepResult
  totalDamageDistribution : ProbabilityDistribution
  expectedDamagePerPlan : ℚ
deriving DecidableEq, Repr, Inhabited

/-- `normalizeStepRepeat` of the source: undefined is 1; a value flooring
below 1 raises; otherwise the floor is the repeat count.  (The source's
Number.isFinite rejection has no ℚ counterpart: every ℚ is finite.) -/
def normalizeStepRepeat (repeat' : Option ℚ) : Except String ℕ :=
  match repeat' with
  | none => .ok 1
  | some q => if ⌊q⌋ < 1 then .error "repeat must be at least 1" else .ok ⌊q⌋.toNat

/-- `calculateAttackDamagePlan` of the source: fold the steps, repeating
each step's total distribution by its repeat count and convolving into
the running plan distribution. -/
def calculateAttackDamagePlan (steps : List AttackDamagePlanStep) :
    Except String AttackDamagePlanResult := do
  let folded ← steps.foldlM
    (fun (acc : ProbabilityDistribution × List AttackDamagePlanStepResult) step => do
      let rep ← normalizeStepRepeat step.repeat'
      let result ← calculateAttackDamage step.request
      let repeatedDistribution := repeatConvolve result.totalDamageDistribution rep
      let expectedDamageTotal := result.expectedDamagePerAttack * rep
      .ok (convolve acc.1 repeatedDistribution,
        acc.2 ++ [{ request := step.request
                    repeat' := rep
                    result := result
                    totalDamageDistribution := repeatedDistribution
                    expectedDamageTotal := expectedDamageTotal }]))
    (constant 0, [])
  .ok
    { steps := folded.2
      totalDamageDistribution := folded.1
      expectedDamagePerPlan := expectation folded.1 }

/-- `SaveCheckInput` of the source. -/
structure SaveCheckInput where
  difficultyClass : ℚ
  saveBonus : ℚ
deriving DecidableEq, Repr, Inhabited

/-- `SaveDamageResult` of the source. -/
structure SaveDamageResult where
  saveSuccessProbability : ℚ
  saveFailProbability : ℚ
  expectedDamage : ℚ
deriving DecidableEq, Repr, Inhabited

/-- `calculateSaveSuccessProbability` of the source. -/
def calculateSaveSuccessProbability (input : SaveCheckInput) : ℚ :=
  clamp01 ((21 - (⌈input.difficultyClass - input.saveBonus⌉ : ℚ)) / 20)

/-- `calculateSaveExpectedDamage` of the source: a pure scalar weighted
average of the two damage means. -/
def calculateSaveExpectedDamage (input : SaveCheckInput)
    (failDamageMean successDamageMean : ℚ) : SaveDamageResult :=
  let saveSuccessProbability := calculateSaveSuccessProbability input
  let saveFailProbability := 1 - saveSuccessProbability
  { saveSuccessProbability := saveSuccessProbability
    saveFailProbability := saveFailProbability
    expectedDamage :=
      saveFailProbability * failDamageMean + saveSuccessProbability * successDamageMean }

/-! Verification helpers: derived quantities and decidable side
conditions used by the theorems below (not functions of the source). -/

/-- Outcome-weighted probability sum of an entry list, for a weight
function `f` on outcomes: Σ f(outcome) · probability. -/
def wsum (f : ℤ → ℚ) (l : List (ℤ × ℚ)) : ℚ :=
  (l.map (fun e => f e.1 * e.2)).sum

/-- Entries are strictly ascending in outcome (the representation
invariant `normalize` establishes). -/
def Sorted (d : ProbabilityDistribution) : Prop :=
  d.entries.Pairwise (fun a b => a.1 < b.1)

/-- All probabilities of a distribution are non-negative. -/
def EntriesNonneg (d : ProbabilityDistribution) : Prop :=
  ∀ e ∈ d.entries, 0 ≤ e.2

/-- A probability value untouched by the near-zero skipping: exactly zero
or strictly above the pruning threshold. -/
def CleanValue (p : ℚ) : Prop := p = 0 ∨ probEps < |p|

instance (p : ℚ) : Decidable (CleanValue p) := by
  unfold CleanValue; infer_instance

/-- All entries of a distribution are clean. -/
def distCleanB (d : ProbabilityDistribution) : Bool :=
  d.entries.all (fun e => decide (CleanValue e.2))

/-- All slots of a dense buffer are clean. -/
def denseCleanB (v : List ℚ) : Bool :=
  v.all (fun p => decide (CleanValue p))

/-- The running dense buffer of `repeatConvolve` after `n` of its
convolution steps. -/
def repeatIter (base : DenseDistribution) (n : ℕ) : DenseDistribution :=
  (fun r => convolveDense r base)^[n] ⟨0, [1]⟩

/-- Decidable witness that a `convolve` call prunes nothing: both inputs
and the dense product are clean. -/
def convCleanB (a b : ProbabilityDistribution) : Bool :=
  distCleanB a && distCleanB b &&
    denseCleanB (convolveDense (toDense a) (toDense b)).values

/-- Decidable witness that `repeatConvolve d n` prunes nothing: the input
is clean and so is every intermediate dense buffer. -/
def repeatCleanB (d : ProbabilityDistribution) (n : ℕ) : Bool :=
  distCleanB d &&
    (List.range (n + 1)).all (fun i => denseCleanB (repeatIter (toDense d) i).values)

/-- Decidable witness that a whole plan aggregation prunes nothing and
keeps total probability 1: walking the per-step (total distribution,
repeat) pairs with the running plan accumulator, each step's distribution
has mass 1, its repetition is prune-free, and so is its convolution into
the accumulator. -/
def planCleanB : ProbabilityDistribution → List (ProbabilityDistribution × ℕ) → Bool
  | _, [] => true
  | acc, (d, n) :: rest =>
    decide (totalProbability d = 1) && repeatCleanB d n &&
      convCleanB acc (repeatConvolve d n) &&
        planCleanB (convolve acc (repeatConvolve d n)) rest

/-- Multiply every dice term's count by `m`, leaving constants unchanged
(the reference transformation claim C3 compares
`buildDamageDistribution` against). -/
def scaleDiceCounts (m : ℕ) (components : List ExpressionComponent) :
    List ExpressionComponent :=
  components.map (fun c =>
    match c with
    | .dice count sides sign => .dice (count * m) sides sign
    | .const value => .const value)

/-- The cumulative distribution of the advantage-resolved attack die, as
a function of the single-roll CDF `F`: normal keeps `F`, advantage
squares it, disadvantage is the complement-square. -/
def cdfOfState (F : ℕ → ℚ) (advantageState : AdvantageState) (k : ℕ) : ℚ :=
  match advantageState with
  | .normal => F k
  | .advantage => F k * F k
  | .disadvantage => 1 - (1 - F k) * (1 - F k)

/-- Per-face contribution to `miss` of the attack face loop. -/
def missContribution (input : AttackCheckInput) (abd : ProbabilityDistribution)
    (sdd : List ℚ) (i : ℕ) : ℚ :=
  let face := i + 1
  let chance := probabilityOfFace sdd face input.advantageState
  if (face : ℤ) ∈ input.rules.autoMissFaces then chance
  else if (face : ℤ) ∈ input.rules.autoCritFaces then 0
  else chance * (1 - probabilityAtLeast abd (input.armorClass - (face : ℚ)))

/-- Per-face contribution to `hit` of the attack face loop. -/
def hitContribution (input : AttackCheckInput) (abd : ProbabilityDistribution)
    (sdd : List ℚ) (i : ℕ) : ℚ :=
  let face := i + 1
  let chance := probabilityOfFace sdd face input.advantageState
  if (face : ℤ) ∈ input.rules.autoMissFaces then 0
  else if (face : ℤ) ∈ input.rules.autoCritFaces then 0
  else chance * probabilityAtLeast abd (input.armorClass - (face : ℚ))

/-- Per-face contribution to `critical` of the attack face loop. -/
def critContribution (input : AttackCheckInput) (abd : ProbabilityDistribution)
    (sdd : List ℚ) (i : ℕ) : ℚ :=
  let face := i + 1
  let chance := probabilityOfFace sdd face input.advantageState
  if (face : ℤ) ∈ input.rules.autoMissFaces then 0
  else if (face : ℤ) ∈ input.rules.autoCritFaces then chance
  else 0

/-- Replace a request's explicit damage-roll count. -/
def withDamageRollCount (request : AttackDamageRequest) (count : ℚ) : AttackDamageRequest :=
  { request with damage := { request.damage with damageRollCount := some count } }

/-- Index-weighted transformed sum over a dense buffer:
Σ over the slots of `w index · g slot`.  Instantiations give the mass
(`w = 1, g = id`), the expectation (`w = offset + index`), and their
skip-pruned variants (`g = epsSkip`). -/
def phiSum (w : ℕ → ℚ) (g : ℚ → ℚ) (v : List ℚ) : ℚ :=
  ((List.range v.length).map (fun i => w i * g (v.getD i 0))).sum

/-- Slot `i` of a dense buffer as the convolution loop reads it:
zero-skipped. -/
def skipAt (v : List ℚ) (i : ℕ) : ℚ := epsSkip (v.getD i 0)

/-- The per-component step of `buildAttackBonusDistribution`, named so the
fold can be reasoned about one component at a time. -/
def attackBonusStep (distribution : ProbabilityDistribution) (component : ExpressionComponent) :
    Except String ProbabilityDistribution :=
  match component with
  | .const value => .ok (shift distribution value)
  | .dice count sides sign => do
    let die ← uniformDieE sides
    let diceDistribution := repeatConvolve die count
    let diceDistribution :=
      if sign < 0 then mapOutcomes diceDistribution (fun o => -o) else diceDistribution
    .ok (convolve distribution diceDistribution)

/-- The per-component step of `buildDamageDistribution`'s fold, named so
the fold can be reasoned about one component at a time. -/
def damageStep (criticalDiceMultiplier : ℚ) (rerollLowThreshold : Option ℚ)
    (distribution : ProbabilityDistribution) (component : ExpressionComponent) :
    Except String ProbabilityDistribution :=
  match component with
  | .const value => .ok (shift distribution value)
  | .dice count sides sign => do
    let effectiveCount := count * criticalDiceMultiplier.num.toNat
    let dieDistribution ← buildRerollLowDieDistribution sides rerollLowThreshold
    let diceDistribution := repeatConvolve dieDistribution effectiveCount
    let diceDistribution :=
      if sign < 0 then mapOutcomes diceDistribution (fun o => -o) else diceDistribution
    .ok (convolve distribution diceDistribution)

/-- The per-step body of `calculateAttackDamagePlan`'s fold, named so the
fold can be reasoned about one step at a time. -/
def planFoldStep (acc : ProbabilityDistribution × List AttackDamagePlanStepResult)
    (step : AttackDamagePlanStep) :
    Except String (ProbabilityDistribution × List AttackDamagePlanStepResult) := do
  let rep ← normalizeStepRepeat step.repeat'
  let result ← calculateAttackDamage step.request
  let repeatedDistribution := repeatConvolve result.totalDamageDistribution rep
  let expectedDamageTotal := result.expectedDamagePerAttack * rep
  .ok (convolve acc.1 repeatedDistribution,
    acc.2 ++ [{ request := step.request
                repeat' := rep
                result := result
                totalDamageDistribution := repeatedDistribution
                expectedDamageTotal := expectedDamageTotal }])

/-- The (total distribution, repeat) pair of every step of a plan, in
order: the data the plan fold convolves together.  Used to state the
prune-free side condition of the corrected C5. -/
def planPairs : List AttackDamagePlanStep → Except String (List (ProbabilityDistribution × ℕ))
  | [] => .ok []
  | step :: rest => do
    let rep ← normalizeStepRepeat step.repeat'
    let result ← calculateAttackDamage step.request
    let pairs ← planPairs rest
    .ok ((result.totalDamageDistribution, rep) :: pairs)

/-- The face-indexed weight the attack loop gives to hit-or-better when
face 1 auto-misses and the top face auto-crits: face 1 (and the unused
index 0) weigh 0, the top face weighs 1, and every other face weighs the
chance that the attack bonus reaches armorClass − face. -/
def attackWeight (input : AttackCheckInput) (abd : ProbabilityDistribution) (f : ℕ) : ℚ :=
  if f = input.rules.dieSides then 1
  else if f ≤ 1 then 0
  else probabilityAtLeast abd (input.armorClass - (f : ℚ))

/-! Concrete inputs used to witness the theorems below on closed data. -/

/-- A d20 attack at armor class 15 with a flat +5 bonus, auto-miss on 1
and auto-crit on 20 (the spec's worked example). -/
def exampleAttack : AttackCheckInput :=
  { armorClass := 15
    attackBonusExpression := [ExpressionComponent.const 5]
    advantageState := AdvantageState.normal
    rules := { dieSides := 20, autoMissFaces := [1], autoCritFaces := [20] }
    halflingLucky := false }

/-- The spec's damage example 1d6+2 with critical multiplier 2. -/
def exampleDamage : DamageModel :=
  { expression := [ExpressionComponent.dice 1 6 1, ExpressionComponent.const 2]
    criticalDiceMultiplier := 2
    modifier := DamageModifier.normal
    diceRollMode := none
    damageRollCount := none
    rerollLowThreshold := none }

/-- The worked attack+damage request. -/
def exampleRequest : AttackDamageRequest := ⟨exampleAttack, exampleDamage⟩

/-- Result of the worked request (defined for closed-witness statements). -/
def exampleResult : AttackDamageResult :=
  ((calculateAttackDamage exampleRequest).toOption).getD default

/-- A d4 attack with advantage and halfling luck: a small input whose
outcome probabilities evaluate quickly. -/
def c1Input : AttackCheckInput :=
  { armorClass := 4
    attackBonusExpression := [ExpressionComponent.const 1]
    advantageState := AdvantageState.advantage
    rules := { dieSides := 4, autoMissFaces := [1], autoCritFaces := [4] }
    halflingLucky := true }

/-- The outcome probabilities of `c1Input` (checked by `rfl` below). -/
def c1Probs : AttackOutcomeProbabilities := ⟨9 / 64, 85 / 256, 135 / 256⟩

/-- A small d4-based attack for the plan witness. -/
def planAttack : AttackCheckInput :=
  { armorClass := 4
    attackBonusExpression := [ExpressionComponent.const 1]
    advantageState := AdvantageState.normal
    rules := { dieSides := 4, autoMissFaces := [1], autoCritFaces := [4] }
    halflingLucky := false }

/-- A small 1d4+1 damage model for the plan witness. -/
def planDamage : DamageModel :=
  { expression := [ExpressionComponent.dice 1 4 1, ExpressionComponent.const 1]
    criticalDiceMultiplier := 2
    modifier := DamageModifier.normal
    diceRollMode := none
    damageRollCount := none
    rerollLowThreshold := none }

/-- A two-step plan: one plain step and one repeated three times. -/
def planSteps : List AttackDamagePlanStep :=
  [{ request := ⟨planAttack, planDamage⟩, repeat' := none },
   { request := ⟨planAttack, planDamage⟩, repeat' := some 3 }]

/-- Its plan result. -/
def planResult : AttackDamagePlanResult :=
  ((calculateAttackDamagePlan planSteps).toOption).getD default

/-- The per-step (total distribution, repeat) pairs of `planSteps`. -/
def planPairsVal : List (ProbabilityDistribution × ℕ) :=
  ((planPairs planSteps).toOption).getD []

/-- A d2 contest every face of which hits (armor class 0, no auto
faces): hit probability 1. -/
def cexAttack : AttackCheckInput :=
  { armorClass := 0
    attackBonusExpression := []
    advantageState := AdvantageState.normal
    rules := { dieSides := 2, autoMissFaces := [], autoCritFaces := [] }
    halflingLucky := false }

/-- 1d2 damage rolled as the best of 50 independent rolls: the losing
outcome keeps probability 2⁻⁵⁰ ≤ 1e-15, which the plan's dense pass
prunes. -/
def cexDamage : DamageModel :=
  { expression := [ExpressionComponent.dice 1 2 1]
    criticalDiceMultiplier := 1
    modifier := DamageModifier.normal
    diceRollMode := some DamageDiceRollMode.advantage
    damageRollCount := some 50
    rerollLowThreshold := none }

/-- One-step plan whose aggregation prunes a near-zero entry. -/
def cexPlanSteps : List AttackDamagePlanStep :=
  [{ request := ⟨cexAttack, cexDamage⟩, repeat' := none }]

/-- Its plan result. -/
def cexPlanResult : AttackDamagePlanResult :=
  ((calculateAttackDamagePlan cexPlanSteps).toOption).getD default

/-- A base attack for the advantage-ordering witness: d4 die, auto-miss
on 1, auto-crit on 4. -/
def c6Base : AttackCheckInput :=
  { armorClass := 4
    attackBonusExpression := [ExpressionComponent.const 1]
    advantageState := AdvantageState.normal
    rules := { dieSides := 4, autoMissFaces := [1], autoCritFaces := [4] }
    halflingLucky := false }

/-- Outcome probabilities of `c6Base` under advantage (checked by `rfl`
below). -/
def c6ProbsA : AttackOutcomeProbabilities := ⟨1 / 4, 5 / 16, 7 / 16⟩

/-- Outcome probabilities of `c6Base` under the normal state. -/
def c6ProbsN : AttackOutcomeProbabilities := ⟨1 / 2, 1 / 4, 1 / 4⟩

/-- Outcome probabilities of `c6Base` under disadvantage. -/
def c6ProbsD : AttackOutcomeProbabilities := ⟨3 / 4, 3 / 16, 1 / 16⟩

/-- A d2 contest every face of which hits (armor class 0, no auto faces):
advantage cannot improve on a sure thing. -/
def c6CexN : AttackCheckInput :=
  { armorClass := 0
    attackBonusExpression := []
    advantageState := AdvantageState.normal
    rules := { dieSides := 2, autoMissFaces := [], autoCritFaces := [] }
    halflingLucky := false }

/-- The same contest with advantage. -/
def c6CexA : AttackCheckInput := { c6CexN with advantageState := AdvantageState.advantage }

/-- Outcome probabilities of the sure-hit contest, normal state. -/
def c6CexProbsN : AttackOutcomeProbabilities := ⟨0, 1, 0⟩

/-- Outcome probabilities of the sure-hit contest, advantage state. -/
def c6CexProbsA : AttackOutcomeProbabilities := ⟨0, 1, 0⟩

/-- A request whose damage model asks for advantage on damage dice with
the explicit non-integer, non-positive-flooring roll count 1/2. -/
def c7Request : AttackDamageRequest :=
  { attack :=
    { armorClass := 2
      attackBonusExpression := []
      advantageState := AdvantageState.normal
      rules := { dieSides := 2, autoMissFaces := [], autoCritFaces := [] }
      halflingLucky := false }
    damage :=
    { expression := [ExpressionComponent.dice 1 2 1]
      criticalDiceMultiplier := 1
      modifier := DamageModifier.normal
      diceRollMode := some DamageDiceRollMode.advantage
      damageRollCount := some (1 / 2)
      rerollLowThreshold := none } }

/-- The result `calculateAttackDamage` silently returns for the
non-integer damage-roll count of `c7Request`. -/
def c7Result : AttackDamageResult :=
  ((calculateAttackDamage c7Request).toOption).getD default

/-- The damage distribution of 1d6+2 with multiplier 1. -/
def c3DistOne : ProbabilityDistribution :=
  ((buildDamageDistribution [ExpressionComponent.dice 1 6 1, ExpressionComponent.const 2]
    1 none).toOption).getD default

/-- The damage distribution of 1d6+2 with multiplier 2 (two dice, the
constant unchanged). -/
def c3DistTwo : ProbabilityDistribution :=
  ((buildDamageDistribution [ExpressionComponent.dice 1 6 1, ExpressionComponent.const 2]
    2 none).toOption).getD default

/-- The reroll-low die distribution for a d6 with threshold 2.5 (floored
to 2), checked by `rfl` below. -/
def c10Dist : ProbabilityDistribution :=
  ⟨[(1, 1 / 18), (2, 1 / 18), (3, 2 / 9), (4, 2 / 9), (5, 2 / 9), (6, 2 / 9)]⟩

/-! Lemmas about `insertEntry` and `normalize`. -/

theorem insertEntry_wsum (f : ℤ → ℚ) (l : List (ℤ × ℚ)) (o : ℤ) (p : ℚ) :
    wsum f (insertEntry l o p) = wsum f l + f o * p := by
  induction l with
  | nil => simp [insertEntry, wsum]
  | cons e rest ih =>
    obtain ⟨o', p'⟩ := e
    by_cases h1 : o < o'
    · simp [insertEntry, h1, wsum]; ring
    · by_cases h2 : o = o'
      · subst h2
        simp [insertEntry, h1, wsum]; ring
      · simp only [insertEntry, if_neg h1, if_neg h2, wsum, List.map_cons, List.sum_cons]
        have := ih
        simp only [wsum] at this
        rw [this]; ring

theorem normalize_wsum (f : ℤ → ℚ) (l : List (ℤ × ℚ)) :
    wsum f (normalize l).entries = wsum f l := by
  suffices h : ∀ acc : List (ℤ × ℚ),
      wsum f (l.foldl (fun acc e => insertEntry acc e.1 e.2) acc) = wsum f acc + wsum f l by
    have := h []
    simpa [normalize, wsum] using this
  induction l with
  | nil => intro acc; simp [wsum]
  | cons e rest ih =>
    intro acc
    simp only [List.foldl_cons]
    rw [ih (insertEntry acc e.1 e.2), insertEntry_wsum]
    simp [wsum]; ring

theorem totalProbability_eq_wsum (d : ProbabilityDistribution) :
    totalProbability d = wsum (fun _ => 1) d.entries := by
  simp [totalProbability, wsum]

theorem expectation_eq_wsum (d : ProbabilityDistribution) :
    expectation d = wsum (fun o => (o : ℚ)) d.entries := by
  simp [expectation, wsum]

theorem totalProbability_normalize (l : List (ℤ × ℚ)) :
    totalProbability (normalize l) = (l.map (fun e => e.2)).sum := by
  rw [totalProbability_eq_wsum, normalize_wsum]
  simp [wsum]

theorem expectation_normalize (l : List (ℤ × ℚ)) :
    expectation (normalize l) = (l.map (fun e => (e.1 : ℚ) * e.2)).sum := by
  rw [expectation_eq_wsum, normalize_wsum]
  simp [wsum]

theorem insertEntry_mem {l : List (ℤ × ℚ)} {o : ℤ} {p : ℚ} {e : ℤ × ℚ}
    (he : e ∈ insertEntry l o p) :
    (e ∈ l ∧ e.1 ≠ o) ∨ (e.1 = o ∧ (e.2 = p ∨ ∃ e' ∈ l, e'.1 = o ∧ e.2 = e'.2 + p)) ∨
      (e ∈ l ∧ e.1 = o) := by
  induction l with
  | nil =>
    simp only [insertEntry, List.mem_singleton] at he
    subst he
    exact Or.inr (Or.inl ⟨rfl, Or.inl rfl⟩)
  | cons e₀ rest ih =>
    obtain ⟨o', p'⟩ := e₀
    by_cases h1 : o < o'
    · simp only [insertEntry, if_pos h1] at he
      rcases List.mem_cons.mp he with he | he
      · subst he; exact Or.inr (Or.inl ⟨rfl, Or.inl rfl⟩)
      · by_cases ho : e.1 = o
        · exact Or.inr (Or.inr ⟨he, ho⟩)
        · exact Or.inl ⟨he, ho⟩
    · by_cases h2 : o = o'
      · simp only [insertEntry, if_neg h1, if_pos h2] at he
        rcases List.mem_cons.mp he with he | he
        · subst he
          exact Or.inr (Or.inl ⟨h2.symm, Or.inr ⟨(o', p'), by simp [h2]⟩⟩)
        · by_cases ho : e.1 = o
          · exact Or.inr (Or.inr ⟨List.mem_cons_of_mem _ he, ho⟩)
          · exact Or.inl ⟨List.mem_cons_of_mem _ he, ho⟩
      · simp only [insertEntry, if_neg h1, if_neg h2] at he
        rcases List.mem_cons.mp he with he | he
        · subst he
          exact Or.inl ⟨List.mem_cons_self _ _, fun hc => h2 hc.symm⟩
        · rcases ih he with ⟨hm, hne⟩ | ⟨ho, hv⟩ | ⟨hm, ho⟩
          · exact Or.inl ⟨List.mem_cons_of_mem _ hm, hne⟩
          · refine Or.inr (Or.inl ⟨ho, ?_⟩)
            rcases hv with hv | ⟨e', he', hev⟩
            · exact Or.inl hv
            · exact Or.inr ⟨e', List.mem_cons_of_mem _ he', hev⟩
          · exact Or.inr (Or.inr ⟨List.mem_cons_of_mem _ hm, ho⟩)

theorem insertEntry_mem_weak {l : List (ℤ × ℚ)} {o : ℤ} {p : ℚ} {e : ℤ × ℚ}
    (he : e ∈ insertEntry l o p) : e ∈ l ∨ e.1 = o := by
  rcases insertEntry_mem he with ⟨hm, _⟩ | ⟨ho, _⟩ | ⟨hm, _⟩
  · exact Or.inl hm
  · exact Or.inr ho
  · exact Or.inl hm

theorem insertEntry_sorted (l : List (ℤ × ℚ)) (o : ℤ) (p : ℚ)
    (h : l.Pairwise (fun a b => a.1 < b.1)) :
    (insertEntry l o p).Pairwise (fun a b => a.1 < b.1) := by
  induction l with
  | nil => simp [insertEntry]
  | cons e₀ rest ih =>
    obtain ⟨o', p'⟩ := e₀
    rw [List.pairwise_cons] at h
    by_cases h1 : o < o'
    · simp only [insertEntry, if_pos h1]
      refine List.Pairwise.cons ?_ (List.Pairwise.cons h.1 h.2)
      intro e' he'
      rcases List.mem_cons.mp he' with he' | he'
      · simp [he', h1]
      · exact lt_trans h1 (h.1 e' he')
    · by_cases h2 : o = o'
      · simp only [insertEntry, if_neg h1, if_pos h2]
        exact List.Pairwise.cons h.1 h.2
      · simp only [insertEntry, if_neg h1, if_neg h2]
        refine List.Pairwise.cons ?_ (ih h.2)
        intro e' he'
        rcases insertEntry_mem_weak he' with hm | hm
        · exact h.1 e' hm
        · rw [hm]
          rcases lt_trichotomy o o' with hlt | heq | hgt
          · exact absurd hlt h1
          · exact absurd heq h2
          · exact hgt

theorem normalize_sorted (l : List (ℤ × ℚ)) :
    (normalize l).entries.Pairwise (fun a b => a.1 < b.1) := by
  suffices h : ∀ (l' acc : List (ℤ × ℚ)), acc.Pairwise (fun a b => a.1 < b.1) →
      (l'.foldl (fun acc e => insertEntry acc e.1 e.2) acc).Pairwise (fun a b => a.1 < b.1) by
    exact h l [] (by simp)
  intro l'
  induction l' with
  | nil => intro acc hacc; simpa using hacc
  | cons e rest ih =>
    intro acc hacc
    simp only [List.foldl_cons]
    exact ih _ (insertEntry_sorted acc e.1 e.2 hacc)

theorem insertEntry_nonneg (l : List (ℤ × ℚ)) (o : ℤ) (p : ℚ)
    (hl : ∀ e ∈ l, 0 ≤ e.2) (hp : 0 ≤ p) :
    ∀ e ∈ insertEntry l o p, 0 ≤ e.2 := by
  intro e he
  rcases insertEntry_mem he with ⟨hm, _⟩ | ⟨_, hv⟩ | ⟨hm, _⟩
  · exact hl _ hm
  · rcases hv with hv | ⟨e', he', _, hev⟩
    · rw [hv]; exact hp
    · rw [hev]; exact add_nonneg (hl _ he') hp
  · exact hl _ hm

theorem normalize_nonneg (l : List (ℤ × ℚ)) (hl : ∀ e ∈ l, 0 ≤ e.2) :
    EntriesNonneg (normalize l) := by
  suffices h : ∀ (l' : List (ℤ × ℚ)), (∀ e ∈ l', 0 ≤ e.2) →
      ∀ acc : List (ℤ × ℚ), (∀ e ∈ acc, 0 ≤ e.2) →
      ∀ e ∈ l'.foldl (fun acc e => insertEntry acc e.1 e.2) acc, 0 ≤ e.2 by
    exact h l hl [] (by simp)
  clear hl
  intro l'
  induction l' with
  | nil => intro _ acc hacc; simpa using hacc
  | cons e₀ rest ih =>
    intro hl' acc hacc
    simp only [List.foldl_cons]
    exact ih (fun e he => hl' _ (List.mem_cons_of_mem _ he)) _
      (insertEntry_nonneg acc e₀.1 e₀.2 hacc (hl' e₀ (by simp)))


/-! Generic bridges between list sums and `Finset.range` sums. -/

theorem sum_map_range (n : ℕ) (f : ℕ → ℚ) :
    ((List.range n).map f).sum = (Finset.range n).sum f := rfl

theorem getD_map_range (n i : ℕ) (f : ℕ → ℚ) (h : i < n) :
    ((List.range n).map f).getD i 0 = f i := by
  rw [List.getD_eq_getElem?_getD]
  simp [List.getElem?_map, List.getElem?_range h]

theorem sum_eq_sum_getD (v : List ℚ) (g : ℚ → ℚ) :
    (v.map g).sum = (Finset.range v.length).sum (fun i => g (v.getD i 0)) := by
  induction v with
  | nil => simp
  | cons a t ih =>
    simp only [List.map_cons, List.sum_cons, List.length_cons, Finset.sum_range_succ',
      List.getD_cons_succ, List.getD_cons_zero, ih]
    ring

theorem sum_eq_phiSum (v : List ℚ) (g : ℚ → ℚ) :
    (v.map g).sum = phiSum (fun _ => 1) g v := by
  rw [phiSum, sum_map_range, sum_eq_sum_getD]
  simp

/-! Lemmas about `epsSkip`. -/

theorem probEps_pos : 0 < probEps := by norm_num [probEps]

theorem epsSkip_zero : epsSkip 0 = 0 := by simp [epsSkip, probEps]

theorem epsSkip_nonneg (p : ℚ) (hp : 0 ≤ p) : 0 ≤ epsSkip p := by
  unfold epsSkip; split <;> simp [hp]

theorem epsSkip_le (p : ℚ) (hp : 0 ≤ p) : epsSkip p ≤ p := by
  unfold epsSkip; split <;> simp [hp]

theorem epsSkip_ge (p : ℚ) (hp : 0 ≤ p) : p - probEps ≤ epsSkip p := by
  unfold epsSkip
  have := probEps_pos
  split
  · next h => rw [abs_of_nonneg hp] at h; linarith
  · linarith

theorem epsSkip_of_clean (p : ℚ) (hp : CleanValue p) : epsSkip p = p := by
  rcases hp with hp | hp
  · simp [hp, epsSkip_zero]
  · simp [epsSkip, not_le.mpr hp]

theorem skipSum_le (v : List ℚ) (hv : ∀ p ∈ v, 0 ≤ p) :
    (v.map epsSkip).sum ≤ v.sum := by
  induction v with
  | nil => simp
  | cons a t ih =>
    simp only [List.map_cons, List.sum_cons]
    have ha := hv a (by simp)
    have := ih (fun p hp => hv p (List.mem_cons_of_mem _ hp))
    have h2 := epsSkip_le a ha
    linarith

theorem skipSum_ge (v : List ℚ) (hv : ∀ p ∈ v, 0 ≤ p) :
    v.sum - (v.length : ℚ) * probEps ≤ (v.map epsSkip).sum := by
  induction v with
  | nil => simp
  | cons a t ih =>
    simp only [List.map_cons, List.sum_cons, List.length_cons]
    have ha := epsSkip_ge a (hv a (by simp))
    have := ih (fun p hp => hv p (List.mem_cons_of_mem _ hp))
    push_cast
    linarith

theorem skipSum_nonneg (v : List ℚ) (hv : ∀ p ∈ v, 0 ≤ p) :
    0 ≤ (v.map epsSkip).sum := by
  induction v with
  | nil => simp
  | cons a t ih =>
    simp only [List.map_cons, List.sum_cons]
    have ha := epsSkip_nonneg a (hv a (by simp))
    have := ih (fun p hp => hv p (List.mem_cons_of_mem _ hp))
    linarith

theorem map_epsSkip_of_clean (v : List ℚ) (hv : ∀ p ∈ v, CleanValue p) :
    v.map epsSkip = v := by
  induction v with
  | nil => simp
  | cons a t ih =>
    simp only [List.map_cons]
    rw [epsSkip_of_clean a (hv a (by simp)), ih (fun p hp => hv p (List.mem_cons_of_mem _ hp))]

/-! Lemmas about `toDense`. -/

theorem phiSum_set (w : ℕ → ℚ) (g : ℚ → ℚ) (v : List ℚ) (i : ℕ) (a : ℚ)
    (hi : i < v.length) :
    phiSum w g (v.set i a) = phiSum w g v - w i * g (v.getD i 0) + w i * g a := by
  unfold phiSum
  rw [sum_map_range, sum_map_range, List.length_set]
  have hmem : i ∈ Finset.range v.length := Finset.mem_range.mpr hi
  rw [← Finset.sum_erase_add _ _ hmem, ← Finset.sum_erase_add _ (fun j => w j * g (v.getD j 0)) hmem]
  have hcongr : ((Finset.range v.length).erase i).sum (fun j => w j * g ((v.set i a).getD j 0)) =
      ((Finset.range v.length).erase i).sum (fun j => w j * g (v.getD j 0)) := by
    refine Finset.sum_congr rfl ?_
    intro j hj
    have hne : i ≠ j := fun h => (Finset.mem_erase.mp hj).1 h.symm
    rw [List.getD_eq_getElem?_getD, List.getElem?_set_ne hne, ← List.getD_eq_getElem?_getD]
  rw [hcongr]
  have hset : (v.set i a).getD i 0 = a := by
    rw [List.getD_eq_getElem?_getD, List.getElem?_set_eq_of_lt a hi]
    rfl
  rw [hset]
  ring

theorem foldl_set_phiSum (w : ℕ → ℚ) (g : ℚ → ℚ) (hg : g 0 = 0) (first : ℤ) :
    ∀ (es : List (ℤ × ℚ)) (v : List ℚ),
      (∀ e ∈ es, first ≤ e.1 ∧ (e.1 - first).toNat < v.length ∧
        v.getD (e.1 - first).toNat 0 = 0) →
      es.Pairwise (fun a b => a.1 ≠ b.1) →
      phiSum w g (es.foldl (fun vv e => vv.set (e.1 - first).toNat e.2) v) =
        phiSum w g v + (es.map (fun e => w (e.1 - first).toNat * g e.2)).sum := by
  intro es
  induction es with
  | nil => intro v _ _; simp
  | cons e rest ih =>
    intro v hb hp
    rw [List.pairwise_cons] at hp
    simp only [List.foldl_cons, List.map_cons, List.sum_cons]
    obtain ⟨hfirst, hlt, hzero⟩ := hb e (by simp)
    have hrest : ∀ e' ∈ rest, first ≤ e'.1 ∧
        (e'.1 - first).toNat < (v.set (e.1 - first).toNat e.2).length ∧
        (v.set (e.1 - first).toNat e.2).getD (e'.1 - first).toNat 0 = 0 := by
      intro e' he'
      obtain ⟨hf', hl', hz'⟩ := hb e' (List.mem_cons_of_mem _ he')
      refine ⟨hf', by simpa using hl', ?_⟩
      have hne : (e.1 - first).toNat ≠ (e'.1 - first).toNat := by
        have := hp.1 e' he'
        omega
      rw [List.getD_eq_getElem?_getD, List.getElem?_set_ne hne, ← List.getD_eq_getElem?_getD]
      exact hz'
    rw [ih _ hrest hp.2, phiSum_set w g v _ _ hlt, hzero, hg]
    ring

theorem sorted_head_le (e₀ : ℤ × ℚ) (rest : List (ℤ × ℚ))
    (h : (e₀ :: rest).Pairwise (fun a b => a.1 < b.1)) :
    ∀ e ∈ e₀ :: rest, e₀.1 ≤ e.1 := by
  rw [List.pairwise_cons] at h
  intro e he
  rcases List.mem_cons.mp he with he | he
  · simp [he]
  · exact le_of_lt (h.1 e he)

theorem sorted_le_getLast :
    ∀ (l : List (ℤ × ℚ)) (h : l.Pairwise (fun a b => a.1 < b.1)) (hne : l ≠ []),
      ∀ e ∈ l, e.1 ≤ (l.getLast hne).1 := by
  intro l
  induction l with
  | nil => intro _ hne; exact absurd rfl hne
  | cons e₀ rest ih =>
    intro h hne e he
    rw [List.pairwise_cons] at h
    by_cases hr : rest = []
    · subst hr
      simp only [List.getLast_singleton]
      rcases List.mem_cons.mp he with he | he
      · simp [he]
      · simp at he
    · rw [List.getLast_cons hr]
      rcases List.mem_cons.mp he with he | he
      · subst he
        exact le_of_lt (h.1 _ (List.getLast_mem hr))
      · exact ih h.2 hr e he

theorem toDense_empty (d : ProbabilityDistribution) (hd : d.entries = []) :
    toDense d = ⟨0, [0]⟩ := by
  unfold toDense
  rw [if_pos (by simp [hd])]

theorem toDense_cons (d : ProbabilityDistribution) (e₀ : ℤ × ℚ) (rest : List (ℤ × ℚ))
    (hd : d.entries = e₀ :: rest) :
    toDense d = ⟨e₀.1, (e₀ :: rest).foldl (fun v e => v.set (e.1 - e₀.1).toNat e.2)
      (List.replicate ((((e₀ :: rest).getLast?.getD (0, 0)).1 - e₀.1 + 1).toNat) 0)⟩ := by
  unfold toDense
  rw [if_neg (by simp [hd])]
  simp only [hd, List.head?_cons, Option.getD_some]

theorem getD_replicate_zero (n i : ℕ) : (List.replicate n (0 : ℚ)).getD i 0 = 0 := by
  rw [List.getD_eq_getElem?_getD]
  rcases lt_or_ge i n with h | h
  · simp [List.getElem?_replicate, h]
  · rw [List.getElem?_eq_none (by simpa using h)]
    rfl

theorem phiSum_replicate_zero (w : ℕ → ℚ) (g : ℚ → ℚ) (hg : g 0 = 0) (n : ℕ) :
    phiSum w g (List.replicate n 0) = 0 := by
  unfold phiSum
  rw [sum_map_range]
  refine Finset.sum_eq_zero ?_
  intro i _
  rw [getD_replicate_zero, hg, mul_zero]

theorem toDense_phiSum (w : ℕ → ℚ) (g : ℚ → ℚ) (hg : g 0 = 0)
    (d : ProbabilityDistribution) (hs : Sorted d) :
    phiSum w g (toDense d).values =
      (d.entries.map (fun e => w ((e.1 - (toDense d).offset).toNat) * g e.2)).sum := by
  have hsp : d.entries.Pairwise (fun a b => a.1 < b.1) := hs
  rcases hd : d.entries with _ | ⟨e₀, rest⟩
  · rw [toDense_empty d hd]
    simp [phiSum, hg, hd]
  · rw [toDense_cons d e₀ rest hd]
    simp only
    rw [hd] at hsp
    have hne : (e₀ :: rest) ≠ ([] : List (ℤ × ℚ)) := by simp
    have hgl : ((e₀ :: rest).getLast?.getD (0, 0)) = (e₀ :: rest).getLast hne := by
      rw [List.getLast?_eq_getLast _ hne]
      rfl
    have hlast : ∀ e ∈ e₀ :: rest, e.1 ≤ ((e₀ :: rest).getLast?.getD (0, 0)).1 := by
      rw [hgl]
      exact sorted_le_getLast _ hsp hne
    have hhead : ∀ e ∈ e₀ :: rest, e₀.1 ≤ e.1 := sorted_head_le e₀ rest hsp
    rw [foldl_set_phiSum w g hg e₀.1 (e₀ :: rest) _ ?_ ?_]
    · rw [phiSum_replicate_zero w g hg]
      simp
    · intro e he
      refine ⟨hhead e he, ?_, getD_replicate_zero _ _⟩
      rw [List.length_replicate]
      have h1 := hhead e he
      have h2 := hlast e he
      omega
    · exact hsp.imp (fun h => ne_of_lt h)

theorem toDense_sumPhi (g : ℚ → ℚ) (hg : g 0 = 0) (d : ProbabilityDistribution)
    (hs : Sorted d) :
    ((toDense d).values.map g).sum = (d.entries.map (fun e => g e.2)).sum := by
  rw [sum_eq_phiSum, toDense_phiSum (fun _ => 1) g hg d hs]
  simp

theorem toDense_sum (d : ProbabilityDistribution) (hs : Sorted d) :
    (toDense d).values.sum = totalProbability d := by
  have h := toDense_sumPhi id rfl d hs
  simpa [totalProbability] using h

theorem toDense_offset_le (d : ProbabilityDistribution) (hs : Sorted d) :
    ∀ e ∈ d.entries, (toDense d).offset ≤ e.1 := by
  have hsp : d.entries.Pairwise (fun a b => a.1 < b.1) := hs
  rcases hd : d.entries with _ | ⟨e₀, rest⟩
  · simp
  · rw [toDense_cons d e₀ rest hd]
    rw [hd] at hsp
    intro e he
    exact sorted_head_le e₀ rest hsp e he

theorem toDense_wsumPhi (g : ℚ → ℚ) (hg : g 0 = 0) (d : ProbabilityDistribution)
    (hs : Sorted d) :
    phiSum (fun i => ((toDense d).offset : ℚ) + i) g (toDense d).values =
      (d.entries.map (fun e => (e.1 : ℚ) * g e.2)).sum := by
  rw [toDense_phiSum _ g hg d hs]
  have hcongr : ∀ e ∈ d.entries,
      (((toDense d).offset : ℚ) + ((e.1 - (toDense d).offset).toNat : ℚ)) * g e.2 =
        (e.1 : ℚ) * g e.2 := by
    intro e he
    have hle := toDense_offset_le d hs e he
    have h1 : (((e.1 - (toDense d).offset).toNat : ℤ)) = e.1 - (toDense d).offset :=
      Int.toNat_of_nonneg (by omega)
    have h2 : (((e.1 - (toDense d).offset).toNat : ℕ) : ℚ) =
        (e.1 : ℚ) - ((toDense d).offset : ℚ) := by
      rw [← Int.cast_natCast, h1]
      push_cast
      ring
    rw [h2]
    ring
  rw [List.map_congr_left hcongr]

theorem foldl_set_length (es : List (ℤ × ℚ)) (first : ℤ) (v : List ℚ) :
    (es.foldl (fun vv e => vv.set (e.1 - first).toNat e.2) v).length = v.length := by
  induction es generalizing v with
  | nil => rfl
  | cons e rest ih => simp [List.foldl_cons, ih]

theorem foldl_set_mem (es : List (ℤ × ℚ)) (first : ℤ) (v : List ℚ) :
    ∀ q ∈ es.foldl (fun vv e => vv.set (e.1 - first).toNat e.2) v,
      q ∈ v ∨ ∃ e ∈ es, q = e.2 := by
  induction es generalizing v with
  | nil => intro q hq; exact Or.inl hq
  | cons e rest ih =>
    intro q hq
    simp only [List.foldl_cons] at hq
    rcases ih _ q hq with hq' | ⟨e', he', hq'⟩
    · rcases List.mem_or_eq_of_mem_set hq' with h | h
      · exact Or.inl h
      · exact Or.inr ⟨e, by simp, h⟩
    · exact Or.inr ⟨e', List.mem_cons_of_mem _ he', hq'⟩

theorem toDense_values_mem (d : ProbabilityDistribution) :
    ∀ q ∈ (toDense d).values, q = 0 ∨ ∃ e ∈ d.entries, q = e.2 := by
  rcases hd : d.entries with _ | ⟨e₀, rest⟩
  · rw [toDense_empty d hd]
    intro q hq
    simp at hq
    exact Or.inl hq
  · rw [toDense_cons d e₀ rest hd]
    intro q hq
    rcases foldl_set_mem (e₀ :: rest) e₀.1 _ q hq with h | h
    · exact Or.inl (List.eq_of_mem_replicate h)
    · exact Or.inr h

theorem toDense_values_nonneg (d : ProbabilityDistribution) (hn : EntriesNonneg d) :
    ∀ q ∈ (toDense d).values, 0 ≤ q := by
  intro q hq
  rcases toDense_values_mem d q hq with h | ⟨e, he, h⟩
  · simp [h]
  · rw [h]; exact hn e he

theorem toDense_values_clean (d : ProbabilityDistribution) (h : distCleanB d = true) :
    ∀ q ∈ (toDense d).values, CleanValue q := by
  intro q hq
  rcases toDense_values_mem d q hq with h' | ⟨e, he, h'⟩
  · exact Or.inl h'
  · rw [h']
    have := List.all_eq_true.mp h e he
    exact of_decide_eq_true this

/-! Lemmas about `convolveDense` and `fromDense`. -/

theorem skipAt_sum (v : List ℚ) :
    (v.map epsSkip).sum = (Finset.range v.length).sum (fun i => skipAt v i) := by
  rw [sum_eq_sum_getD]
  rfl

theorem phiSum_eq_skipAt (w : ℕ → ℚ) (v : List ℚ) :
    phiSum w epsSkip v = (Finset.range v.length).sum (fun i => w i * skipAt v i) := by
  rw [phiSum, sum_map_range]
  rfl

theorem convolveDense_length (l r : DenseDistribution) :
    (convolveDense l r).values.length = l.values.length + r.values.length - 1 := by
  simp [convolveDense]

theorem convolveDense_getD (l r : DenseDistribution) (k : ℕ)
    (hk : k < l.values.length + r.values.length - 1) :
    (convolveDense l r).values.getD k 0 =
      (Finset.range l.values.length).sum (fun i =>
        if i ≤ k then skipAt l.values i * skipAt r.values (k - i) else 0) := by
  show ((List.range (l.values.length + r.values.length - 1)).map _).getD k 0 = _
  rw [getD_map_range _ _ _ hk, sum_map_range]
  rfl

theorem convolveDense_phiSum (l r : DenseDistribution) (w u t : ℕ → ℚ)
    (hw : ∀ i j, i < l.values.length → j < r.values.length → w (i + j) = u i + t j) :
    phiSum w id (convolveDense l r).values =
      phiSum u epsSkip l.values * (r.values.map epsSkip).sum +
        (l.values.map epsSkip).sum * phiSum t epsSkip r.values := by
  have hb0 : ∀ j, r.values.length ≤ j → skipAt r.values j = 0 := by
    intro j hj
    rw [skipAt, List.getD_eq_default _ _ hj, epsSkip_zero]
  have hmain : phiSum w id (convolveDense l r).values =
      (Finset.range (l.values.length + r.values.length - 1)).sum (fun k =>
        (Finset.range l.values.length).sum (fun i =>
          if i ≤ k then w k * (skipAt l.values i * skipAt r.values (k - i)) else 0)) := by
    rw [phiSum, convolveDense_length, sum_map_range]
    refine Finset.sum_congr rfl ?_
    intro k hk
    rw [convolveDense_getD l r k (Finset.mem_range.mp hk), id_eq, Finset.mul_sum]
    refine Finset.sum_congr rfl ?_
    intro i _
    split <;> simp
  rw [hmain, Finset.sum_comm]
  have hinner : ∀ i ∈ Finset.range l.values.length,
      (Finset.range (l.values.length + r.values.length - 1)).sum (fun k =>
        if i ≤ k then w k * (skipAt l.values i * skipAt r.values (k - i)) else 0) =
      skipAt l.values i *
        (Finset.range r.values.length).sum (fun j => w (i + j) * skipAt r.values j) := by
    intro i hi
    rw [← Finset.sum_filter]
    have hfil : (Finset.range (l.values.length + r.values.length - 1)).filter
        (fun k => i ≤ k) = Finset.Ico i (l.values.length + r.values.length - 1) := by
      ext k
      simp only [Finset.mem_filter, Finset.mem_range, Finset.mem_Ico]
      omega
    rw [hfil, Finset.sum_Ico_eq_sum_range]
    have hsub : Finset.range r.values.length ⊆
        Finset.range (l.values.length + r.values.length - 1 - i) := by
      intro j hj
      simp only [Finset.mem_range] at hj ⊢
      have := Finset.mem_range.mp hi
      omega
    rw [← Finset.sum_subset hsub ?_]
    · rw [Finset.mul_sum]
      refine Finset.sum_congr rfl ?_
      intro j _
      have hij : i + j - i = j := by omega
      rw [hij]
      ring
    · intro j _ hjR
      have hge : r.values.length ≤ j := by
        simp only [Finset.mem_range] at hjR
        omega
      have hij : i + j - i = j := by omega
      rw [hij, hb0 j hge, mul_zero, mul_zero]
  rw [Finset.sum_congr rfl hinner]
  have hsplit : ∀ i ∈ Finset.range l.values.length,
      skipAt l.values i *
        (Finset.range r.values.length).sum (fun j => w (i + j) * skipAt r.values j) =
      u i * skipAt l.values i *
          (Finset.range r.values.length).sum (fun j => skipAt r.values j) +
        skipAt l.values i *
          (Finset.range r.values.length).sum (fun j => t j * skipAt r.values j) := by
    intro i hi
    have hj : (Finset.range r.values.length).sum (fun j => w (i + j) * skipAt r.values j) =
        (Finset.range r.values.length).sum
          (fun j => u i * skipAt r.values j + t j * skipAt r.values j) := by
      refine Finset.sum_congr rfl ?_
      intro j hjm
      rw [hw i j (Finset.mem_range.mp hi) (Finset.mem_range.mp hjm)]
      ring
    rw [hj, Finset.sum_add_distrib, ← Finset.mul_sum]
    ring
  rw [Finset.sum_congr rfl hsplit, Finset.sum_add_distrib, ← Finset.sum_mul, ← Finset.sum_mul]
  rw [phiSum_eq_skipAt, phiSum_eq_skipAt, skipAt_sum l.values, skipAt_sum r.values]

theorem convolveDense_sum (l r : DenseDistribution) :
    (convolveDense l r).values.sum =
      (l.values.map epsSkip).sum * (r.values.map epsSkip).sum := by
  have h := convolveDense_phiSum l r (fun _ => 1) (fun _ => 1) (fun _ => 0)
    (by intro i j _ _; norm_num)
  have hl : phiSum (fun _ => 1) id (convolveDense l r).values = (convolveDense l r).values.sum := by
    rw [← sum_eq_phiSum]
    simp
  have hu : phiSum (fun _ => 1) epsSkip l.values = (l.values.map epsSkip).sum := by
    rw [← sum_eq_phiSum]
  have ht : phiSum (fun _ => 0) epsSkip r.values = 0 := by
    rw [phiSum_eq_skipAt]
    simp
  rw [hl, hu, ht] at h
  rw [h]
  ring

theorem wsum_filterMap_eps (f : ℤ → ℚ) (ns : List ℕ) (o : ℕ → ℤ) (g : ℕ → ℚ) :
    wsum f (ns.filterMap (fun i => if |g i| ≤ probEps then none else some (o i, g i))) =
      (ns.map (fun i => f (o i) * epsSkip (g i))).sum := by
  induction ns with
  | nil => simp [wsum]
  | cons n rest ih =>
    simp only [List.filterMap_cons, List.map_cons, List.sum_cons]
    by_cases h : |g n| ≤ probEps
    · rw [if_pos h]
      rw [ih]
      have : epsSkip (g n) = 0 := by simp [epsSkip, h]
      rw [this, mul_zero, zero_add]
    · rw [if_neg h]
      simp only [wsum, List.map_cons, List.sum_cons]
      have : epsSkip (g n) = g n := by simp [epsSkip, h]
      rw [this]
      have ih' := ih
      simp only [wsum] at ih'
      rw [ih']

theorem fromDense_entries_wsum (f : ℤ → ℚ) (dd : DenseDistribution) :
    wsum f (fromDense dd).entries =
      (Finset.range dd.values.length).sum
        (fun i => f (dd.offset + i) * epsSkip (dd.values.getD i 0)) := by
  rw [fromDense, normalize_wsum]
  rw [wsum_filterMap_eps f (List.range dd.values.length)
    (fun i => dd.offset + i) (fun i => dd.values.getD i 0), sum_map_range]

theorem totalProbability_fromDense (dd : DenseDistribution) :
    totalProbability (fromDense dd) = (dd.values.map epsSkip).sum := by
  rw [totalProbability_eq_wsum, fromDense_entries_wsum, sum_eq_sum_getD]
  simp

theorem expectation_fromDense (dd : DenseDistribution) :
    expectation (fromDense dd) =
      phiSum (fun i => ((dd.offset : ℚ) + i)) epsSkip dd.values := by
  rw [expectation_eq_wsum, fromDense_entries_wsum, phiSum_eq_skipAt]
  refine Finset.sum_congr rfl ?_
  intro i _
  rw [skipAt]
  push_cast
  ring

theorem fromDense_sorted (dd : DenseDistribution) : Sorted (fromDense dd) :=
  normalize_sorted _

theorem fromDense_nonneg (dd : DenseDistribution) (h : ∀ p ∈ dd.values, 0 ≤ p) :
    EntriesNonneg (fromDense dd) := by
  refine normalize_nonneg _ ?_
  intro e he
  rcases List.mem_filterMap.mp he with ⟨i, _, hfi⟩
  by_cases hc : |dd.values.getD i 0| ≤ probEps
  · simp only [if_pos hc] at hfi
    cases hfi
  · simp only [if_neg hc] at hfi
    cases hfi
    rcases lt_or_ge i dd.values.length with hi | hi
    · rw [List.getD_eq_getElem _ _ hi]
      exact h _ (List.getElem_mem hi)
    · rw [List.getD_eq_default _ _ hi]

theorem convolveDense_values_nonneg (l r : DenseDistribution)
    (hl : ∀ p ∈ l.values, 0 ≤ p) (hr : ∀ p ∈ r.values, 0 ≤ p) :
    ∀ p ∈ (convolveDense l r).values, 0 ≤ p := by
  intro p hp
  simp only [convolveDense, List.mem_map] at hp
  obtain ⟨k, _, hk⟩ := hp
  rw [← hk, sum_map_range]
  refine Finset.sum_nonneg ?_
  intro i _
  split
  · refine mul_nonneg (epsSkip_nonneg _ ?_) (epsSkip_nonneg _ ?_)
    · rcases lt_or_ge i l.values.length with h | h
      · rw [List.getD_eq_getElem _ _ h]
        exact hl _ (List.getElem_mem h)
      · rw [List.getD_eq_default _ _ h]
    · rcases lt_or_ge (k - i) r.values.length with h | h
      · rw [List.getD_eq_getElem _ _ h]
        exact hr _ (List.getElem_mem h)
      · rw [List.getD_eq_default _ _ h]
  · exact le_refl 0


theorem insertEntry_append_gt (l : List (ℤ × ℚ)) (o : ℤ) (p : ℚ)
    (h : ∀ e ∈ l, e.1 < o) : insertEntry l o p = l ++ [(o, p)] := by
  induction l with
  | nil => simp [insertEntry]
  | cons e₀ rest ih =>
    have h₀ := h e₀ (by simp)
    simp only [insertEntry, if_neg (by omega : ¬o < e₀.1), if_neg (by omega : ¬o = e₀.1)]
    rw [ih (fun e he => h e (List.mem_cons_of_mem _ he))]
    simp

theorem normalize_of_sorted (l : List (ℤ × ℚ)) (h : l.Pairwise (fun a b => a.1 < b.1)) :
    (normalize l).entries = l := by
  suffices hs : ∀ (l' acc : List (ℤ × ℚ)), (acc ++ l').Pairwise (fun a b => a.1 < b.1) →
      l'.foldl (fun acc e => insertEntry acc e.1 e.2) acc = acc ++ l' by
    have := hs l [] (by simpa using h)
    simpa [normalize] using this
  intro l'
  induction l' with
  | nil => intro acc _; simp
  | cons e rest ih =>
    intro acc hacc
    simp only [List.foldl_cons]
    have hgt : ∀ e' ∈ acc, e'.1 < e.1 := by
      intro e' he'
      have := (List.pairwise_append.mp hacc).2.2 e' he' e (by simp)
      exact this
    rw [insertEntry_append_gt acc e.1 e.2 hgt]
    have : (acc ++ [e]) ++ rest = acc ++ e :: rest := by simp
    rw [ih (acc ++ [e]) (by rw [this]; exact hacc)]
    simp

theorem uniformDie_entries (sides : ℕ) :
    (uniformDie sides).entries =
      (List.range sides).map (fun (i : ℕ) => ((i : ℤ) + 1, 1 / (sides : ℚ))) := by
  rw [uniformDie, normalize_of_sorted]
  refine List.pairwise_map.mpr ?_
  refine List.Pairwise.imp ?_ (List.pairwise_lt_range sides)
  intro a b hab
  simp only
  omega

theorem totalProbability_uniformDie (sides : ℕ) (h : 1 ≤ sides) :
    totalProbability (uniformDie sides) = 1 := by
  rw [uniformDie, totalProbability_normalize]
  rw [List.map_map]
  have : ((List.range sides).map
      ((fun e : ℤ × ℚ => e.2) ∘ (fun i : ℕ => ((i : ℤ) + 1, 1 / (sides : ℚ))))).sum =
      (Finset.range sides).sum (fun _ => 1 / (sides : ℚ)) := by
    rw [sum_map_range]
    rfl
  rw [this, Finset.sum_const, Finset.card_range]
  have hne : (sides : ℚ) ≠ 0 := by positivity
  field_simp

theorem uniformDie_sorted (sides : ℕ) : Sorted (uniformDie sides) :=
  normalize_sorted _

theorem uniformDie_nonneg (sides : ℕ) : EntriesNonneg (uniformDie sides) := by
  refine normalize_nonneg _ ?_
  intro e he
  rcases List.mem_map.mp he with ⟨i, _, hi⟩
  rw [← hi]
  positivity

theorem totalProbability_constant (v : ℤ) : totalProbability (constant v) = 1 := by
  rw [constant, totalProbability_normalize]
  simp

theorem expectation_constant (v : ℤ) : expectation (constant v) = v := by
  rw [constant, expectation_normalize]
  simp

theorem constant_sorted (v : ℤ) : Sorted (constant v) := normalize_sorted _

theorem constant_nonneg (v : ℤ) : EntriesNonneg (constant v) := by
  refine normalize_nonneg _ ?_
  simp

theorem totalProbability_shift (d : ProbabilityDistribution) (k : ℤ) :
    totalProbability (shift d k) = totalProbability d := by
  rw [shift, totalProbability_normalize, totalProbability, List.map_map]
  rfl

theorem shift_sorted (d : ProbabilityDistribution) (k : ℤ) : Sorted (shift d k) :=
  normalize_sorted _

theorem shift_nonneg (d : ProbabilityDistribution) (k : ℤ) (hn : EntriesNonneg d) :
    EntriesNonneg (shift d k) := by
  refine normalize_nonneg _ ?_
  intro e he
  rcases List.mem_map.mp he with ⟨e', he', hee⟩
  rw [← hee]
  exact hn e' he'

theorem totalProbability_mapOutcomes (d : ProbabilityDistribution) (f : ℤ → ℤ) :
    totalProbability (mapOutcomes d f) = totalProbability d := by
  rw [mapOutcomes, totalProbability_normalize, totalProbability, List.map_map]
  rfl

theorem mapOutcomes_sorted (d : ProbabilityDistribution) (f : ℤ → ℤ) :
    Sorted (mapOutcomes d f) := normalize_sorted _

theorem mapOutcomes_nonneg (d : ProbabilityDistribution) (f : ℤ → ℤ)
    (hn : EntriesNonneg d) : EntriesNonneg (mapOutcomes d f) := by
  refine normalize_nonneg _ ?_
  intro e he
  rcases List.mem_map.mp he with ⟨e', he', hee⟩
  rw [← hee]
  exact hn e' he'

theorem maxAux_mass (n : ℕ) (es : List (ℤ × ℚ)) :
    ∀ prev : ℚ, ((maxAux n es prev).map (fun e => e.2)).sum =
      (prev + (es.map (fun e => e.2)).sum) ^ n - prev ^ n := by
  induction es with
  | nil => intro prev; simp [maxAux]
  | cons e rest ih =>
    intro prev
    obtain ⟨o, p⟩ := e
    simp only [maxAux, List.map_cons, List.sum_cons]
    rw [ih (prev + p)]
    ring_nf

theorem minAux_mass (n : ℕ) (es : List (ℤ × ℚ)) :
    ∀ prev : ℚ, ((minAux n es prev).map (fun e => e.2)).sum =
      (1 - prev) ^ n - (1 - (prev + (es.map (fun e => e.2)).sum)) ^ n := by
  induction es with
  | nil => intro prev; simp [minAux]
  | cons e rest ih =>
    intro prev
    obtain ⟨o, p⟩ := e
    simp only [minAux, List.map_cons, List.sum_cons]
    rw [ih (prev + p)]
    ring_nf

theorem totalProbability_maxOfIndependent (d : ProbabilityDistribution) (n : ℕ)
    (hn : 1 ≤ n) (hd : totalProbability d = 1) :
    totalProbability (maxOfIndependent d n) = 1 := by
  by_cases h1 : n = 1
  · rw [maxOfIndependent, if_pos h1]
    exact hd
  · rw [maxOfIndependent, if_neg h1, fromEntries, totalProbability_normalize,
      maxAux_mass n d.entries 0]
    rw [totalProbability] at hd
    rw [hd]
    rw [zero_pow (by omega : n ≠ 0)]
    simp

theorem totalProbability_minOfIndependent (d : ProbabilityDistribution) (n : ℕ)
    (hn : 1 ≤ n) (hd : totalProbability d = 1) :
    totalProbability (minOfIndependent d n) = 1 := by
  by_cases h1 : n = 1
  · rw [minOfIndependent, if_pos h1]
    exact hd
  · rw [minOfIndependent, if_neg h1, fromEntries, totalProbability_normalize,
      minAux_mass n d.entries 0]
    rw [totalProbability] at hd
    rw [hd]
    rw [zero_add, sub_self, zero_pow (by omega : n ≠ 0)]
    simp

/-! Lemmas about `convolve` and `repeatConvolve`. -/

theorem totalProbability_nonneg (d : ProbabilityDistribution) (hn : EntriesNonneg d) :
    0 ≤ totalProbability d := by
  refine List.sum_nonneg ?_
  intro x hx
  rcases List.mem_map.mp hx with ⟨e, he, hee⟩
  rw [← hee]
  exact hn e he

theorem entrySkipSum_le (d : ProbabilityDistribution) (hn : EntriesNonneg d) :
    (d.entries.map (fun e => epsSkip e.2)).sum ≤ totalProbability d :=
  List.sum_le_sum (fun e he => epsSkip_le e.2 (hn e he))

theorem entrySkipSum_nonneg (d : ProbabilityDistribution) (hn : EntriesNonneg d) :
    0 ≤ (d.entries.map (fun e => epsSkip e.2)).sum := by
  refine List.sum_nonneg ?_
  intro x hx
  rcases List.mem_map.mp hx with ⟨e, he, hee⟩
  rw [← hee]
  exact epsSkip_nonneg _ (hn e he)

theorem distClean_entries (d : ProbabilityDistribution) (h : distCleanB d = true) :
    ∀ e ∈ d.entries, CleanValue e.2 := by
  intro e he
  exact of_decide_eq_true (List.all_eq_true.mp h e he)

theorem entrySkipSum_of_clean (d : ProbabilityDistribution) (h : distCleanB d = true) :
    (d.entries.map (fun e => epsSkip e.2)).sum = totalProbability d := by
  rw [totalProbability]
  refine congrArg List.sum ?_
  refine List.map_congr_left ?_
  intro e he
  exact epsSkip_of_clean e.2 (distClean_entries d h e he)

theorem skipDense_eq_entrySkip (d : ProbabilityDistribution) (hs : Sorted d) :
    ((toDense d).values.map epsSkip).sum = (d.entries.map (fun e => epsSkip e.2)).sum :=
  toDense_sumPhi epsSkip epsSkip_zero d hs

theorem convolve_sorted (a b : ProbabilityDistribution) : Sorted (convolve a b) :=
  fromDense_sorted _

theorem convolve_nonneg (a b : ProbabilityDistribution)
    (hna : EntriesNonneg a) (hnb : EntriesNonneg b) : EntriesNonneg (convolve a b) :=
  fromDense_nonneg _ (convolveDense_values_nonneg _ _
    (toDense_values_nonneg a hna) (toDense_values_nonneg b hnb))

theorem totalProbability_convolve_le (a b : ProbabilityDistribution)
    (hsa : Sorted a) (hsb : Sorted b) (hna : EntriesNonneg a) (hnb : EntriesNonneg b) :
    0 ≤ totalProbability (convolve a b) ∧
      totalProbability (convolve a b) ≤ totalProbability a * totalProbability b := by
  have hCnn := convolveDense_values_nonneg (toDense a) (toDense b)
    (toDense_values_nonneg a hna) (toDense_values_nonneg b hnb)
  have htot : totalProbability (convolve a b) =
      ((convolveDense (toDense a) (toDense b)).values.map epsSkip).sum :=
    totalProbability_fromDense _
  constructor
  · rw [htot]
    exact skipSum_nonneg _ hCnn
  · rw [htot]
    have h1 : ((convolveDense (toDense a) (toDense b)).values.map epsSkip).sum ≤
        (convolveDense (toDense a) (toDense b)).values.sum := skipSum_le _ hCnn
    rw [convolveDense_sum] at h1
    have hA : ((toDense a).values.map epsSkip).sum ≤ totalProbability a := by
      rw [skipDense_eq_entrySkip a hsa]
      exact entrySkipSum_le a hna
    have hB : ((toDense b).values.map epsSkip).sum ≤ totalProbability b := by
      rw [skipDense_eq_entrySkip b hsb]
      exact entrySkipSum_le b hnb
    have hA0 : 0 ≤ ((toDense a).values.map epsSkip).sum := by
      rw [skipDense_eq_entrySkip a hsa]
      exact entrySkipSum_nonneg a hna
    have hB0 : 0 ≤ ((toDense b).values.map epsSkip).sum := by
      rw [skipDense_eq_entrySkip b hsb]
      exact entrySkipSum_nonneg b hnb
    have hTa : 0 ≤ totalProbability a := totalProbability_nonneg a hna
    calc ((convolveDense (toDense a) (toDense b)).values.map epsSkip).sum
        ≤ ((toDense a).values.map epsSkip).sum * ((toDense b).values.map epsSkip).sum := h1
      _ ≤ totalProbability a * totalProbability b := mul_le_mul hA hB hB0 hTa

theorem phiSum_epsSkip_of_clean (w : ℕ → ℚ) (v : List ℚ)
    (hv : ∀ p ∈ v, CleanValue p) : phiSum w epsSkip v = phiSum w id v := by
  rw [phiSum, phiSum, sum_map_range, sum_map_range]
  refine Finset.sum_congr rfl ?_
  intro i hi
  have hlt := Finset.mem_range.mp hi
  rw [List.getD_eq_getElem _ _ hlt]
  rw [epsSkip_of_clean _ (hv _ (List.getElem_mem hlt))]
  rfl

theorem map_epsSkip_sum_of_clean (v : List ℚ) (hv : ∀ p ∈ v, CleanValue p) :
    (v.map epsSkip).sum = v.sum := by
  rw [map_epsSkip_of_clean v hv]

theorem totalProbability_convolve_clean (a b : ProbabilityDistribution)
    (hsa : Sorted a) (hsb : Sorted b) (hc : convCleanB a b = true) :
    totalProbability (convolve a b) = totalProbability a * totalProbability b := by
  have hc' := hc
  rw [convCleanB, Bool.and_eq_true, Bool.and_eq_true] at hc'
  obtain ⟨⟨hca, hcb⟩, hcC⟩ := hc'
  have hCclean : ∀ p ∈ (convolveDense (toDense a) (toDense b)).values, CleanValue p := by
    intro p hp
    exact of_decide_eq_true (List.all_eq_true.mp hcC p hp)
  rw [convolve, totalProbability_fromDense, map_epsSkip_sum_of_clean _ hCclean,
    convolveDense_sum]
  rw [skipDense_eq_entrySkip a hsa, skipDense_eq_entrySkip b hsb,
    entrySkipSum_of_clean a hca, entrySkipSum_of_clean b hcb]

theorem expectation_convolve_clean (a b : ProbabilityDistribution)
    (hsa : Sorted a) (hsb : Sorted b) (hc : convCleanB a b = true) :
    expectation (convolve a b) =
      expectation a * totalProbability b + totalProbability a * expectation b := by
  have hc' := hc
  rw [convCleanB, Bool.and_eq_true, Bool.and_eq_true] at hc'
  obtain ⟨⟨hca, hcb⟩, hcC⟩ := hc'
  have hCclean : ∀ p ∈ (convolveDense (toDense a) (toDense b)).values, CleanValue p := by
    intro p hp
    exact of_decide_eq_true (List.all_eq_true.mp hcC p hp)
  have hoff : (convolveDense (toDense a) (toDense b)).offset =
      (toDense a).offset + (toDense b).offset := rfl
  rw [convolve, expectation_fromDense, hoff]
  rw [phiSum_epsSkip_of_clean _ _ hCclean]
  rw [convolveDense_phiSum (toDense a) (toDense b) _
    (fun i => (((toDense a).offset : ℚ) + i)) (fun j => (((toDense b).offset : ℚ) + j)) ?_]
  · rw [toDense_wsumPhi epsSkip epsSkip_zero a hsa, toDense_wsumPhi epsSkip epsSkip_zero b hsb,
      skipDense_eq_entrySkip a hsa, skipDense_eq_entrySkip b hsb,
      entrySkipSum_of_clean a hca, entrySkipSum_of_clean b hcb]
    have hea : (a.entries.map (fun e => (e.1 : ℚ) * epsSkip e.2)).sum = expectation a := by
      rw [expectation]
      refine congrArg List.sum ?_
      refine List.map_congr_left ?_
      intro e he
      rw [epsSkip_of_clean e.2 (distClean_entries a hca e he)]
    have heb : (b.entries.map (fun e => (e.1 : ℚ) * epsSkip e.2)).sum = expectation b := by
      rw [expectation]
      refine congrArg List.sum ?_
      refine List.map_congr_left ?_
      intro e he
      rw [epsSkip_of_clean e.2 (distClean_entries b hcb e he)]
    rw [hea, heb]
  · intro i j _ _
    push_cast
    ring

theorem repeatIter_succ (b : DenseDistribution) (n : ℕ) :
    repeatIter b (n + 1) = convolveDense (repeatIter b n) b := by
  rw [repeatIter, Function.iterate_succ_apply']
  rfl

theorem repeatConvolve_eq_iter (d : ProbabilityDistribution) (n : ℕ) (h : n ≠ 0) :
    repeatConvolve d n = fromDense (repeatIter (toDense d) n) := by
  rw [repeatConvolve, if_neg h]
  rfl

theorem repeatIter_values_nonneg (b : DenseDistribution) (hb : ∀ p ∈ b.values, 0 ≤ p)
    (n : ℕ) : ∀ p ∈ (repeatIter b n).values, 0 ≤ p := by
  induction n with
  | zero =>
    intro p hp
    simp only [repeatIter, Function.iterate_zero, id_eq] at hp
    rcases List.mem_singleton.mp hp with h
    simp [h]
  | succ n ih =>
    rw [repeatIter_succ]
    exact convolveDense_values_nonneg _ _ ih hb

theorem repeatIter_sum_le_one (b : DenseDistribution) (hb : ∀ p ∈ b.values, 0 ≤ p)
    (hs : b.values.sum ≤ 1) (n : ℕ) :
    0 ≤ (repeatIter b n).values.sum ∧ (repeatIter b n).values.sum ≤ 1 := by
  induction n with
  | zero =>
    constructor <;> simp [repeatIter]
  | succ n ih =>
    rw [repeatIter_succ]
    have hnn := repeatIter_values_nonneg b hb n
    have hskipI_le : ((repeatIter b n).values.map epsSkip).sum ≤ (repeatIter b n).values.sum :=
      skipSum_le _ hnn
    have hskipI_nn : 0 ≤ ((repeatIter b n).values.map epsSkip).sum := skipSum_nonneg _ hnn
    have hskipB_le : (b.values.map epsSkip).sum ≤ b.values.sum := skipSum_le _ hb
    have hskipB_nn : 0 ≤ (b.values.map epsSkip).sum := skipSum_nonneg _ hb
    rw [convolveDense_sum]
    constructor
    · exact mul_nonneg hskipI_nn hskipB_nn
    · calc ((repeatIter b n).values.map epsSkip).sum * (b.values.map epsSkip).sum
          ≤ 1 * 1 := by
            refine mul_le_mul ?_ ?_ hskipB_nn (by norm_num)
            · exact le_trans hskipI_le ih.2
            · exact le_trans hskipB_le hs
        _ = 1 := by norm_num

theorem repeatConvolve_sorted (d : ProbabilityDistribution) (n : ℕ) :
    Sorted (repeatConvolve d n) := by
  by_cases h : n = 0
  · rw [repeatConvolve, if_pos h]
    exact constant_sorted 0
  · rw [repeatConvolve_eq_iter d n h]
    exact fromDense_sorted _

theorem repeatConvolve_nonneg (d : ProbabilityDistribution) (n : ℕ)
    (hn : EntriesNonneg d) : EntriesNonneg (repeatConvolve d n) := by
  by_cases h : n = 0
  · rw [repeatConvolve, if_pos h]
    exact constant_nonneg 0
  · rw [repeatConvolve_eq_iter d n h]
    exact fromDense_nonneg _ (repeatIter_values_nonneg _ (toDense_values_nonneg d hn) n)

theorem totalProbability_repeatConvolve_le_one (d : ProbabilityDistribution) (n : ℕ)
    (hs : Sorted d) (hn : EntriesNonneg d) (ht : totalProbability d ≤ 1) :
    0 ≤ totalProbability (repeatConvolve d n) ∧ totalProbability (repeatConvolve d n) ≤ 1 := by
  by_cases h : n = 0
  · rw [repeatConvolve, if_pos h, totalProbability_constant]
    norm_num
  · rw [repeatConvolve_eq_iter d n h, totalProbability_fromDense]
    have hbnn := toDense_values_nonneg d hn
    have hbsum : (toDense d).values.sum ≤ 1 := by
      rw [toDense_sum d hs]
      exact ht
    have hiter := repeatIter_sum_le_one (toDense d) hbnn hbsum n
    have hnn := repeatIter_values_nonneg (toDense d) hbnn n
    constructor
    · exact skipSum_nonneg _ hnn
    · exact le_trans (skipSum_le _ hnn) hiter.2

theorem entryWsum_of_clean (d : ProbabilityDistribution)
    (h : ∀ e ∈ d.entries, CleanValue e.2) :
    (d.entries.map (fun e => (e.1 : ℚ) * epsSkip e.2)).sum = expectation d := by
  rw [expectation]
  refine congrArg List.sum ?_
  refine List.map_congr_left ?_
  intro e he
  rw [epsSkip_of_clean e.2 (h e he)]

theorem entrySkipSum_of_cleanP (d : ProbabilityDistribution)
    (h : ∀ e ∈ d.entries, CleanValue e.2) :
    (d.entries.map (fun e => epsSkip e.2)).sum = totalProbability d := by
  rw [totalProbability]
  refine congrArg List.sum ?_
  refine List.map_congr_left ?_
  intro e he
  exact epsSkip_of_clean e.2 (h e he)

theorem repeatConvolve_clean (d : ProbabilityDistribution) (n : ℕ)
    (hs : Sorted d) (h1 : totalProbability d = 1) (hc : repeatCleanB d n = true) :
    totalProbability (repeatConvolve d n) = 1 ∧
      expectation (repeatConvolve d n) = n * expectation d := by
  rw [repeatCleanB, Bool.and_eq_true] at hc
  obtain ⟨hcd, hciter⟩ := hc
  have hiterclean : ∀ i ≤ n, ∀ p ∈ (repeatIter (toDense d) i).values, CleanValue p := by
    intro i hi p hp
    have hmem := List.all_eq_true.mp hciter i (List.mem_range.mpr (by omega))
    exact of_decide_eq_true (List.all_eq_true.mp hmem p hp)
  have hbase_clean : ∀ p ∈ (toDense d).values, CleanValue p :=
    toDense_values_clean d hcd
  have hbase_skip : ((toDense d).values.map epsSkip).sum = 1 := by
    rw [map_epsSkip_sum_of_clean _ hbase_clean, toDense_sum d hs]
    exact h1
  have hbase_w : phiSum (fun i => (((toDense d).offset : ℚ)) + i) epsSkip
      (toDense d).values = expectation d := by
    rw [toDense_wsumPhi epsSkip epsSkip_zero d hs]
    exact entryWsum_of_clean d (distClean_entries d hcd)
  have main : ∀ i, i ≤ n →
      (repeatIter (toDense d) i).values.sum = 1 ∧
      phiSum (fun k => (((repeatIter (toDense d) i).offset : ℚ)) + k) id
        (repeatIter (toDense d) i).values = i * expectation d := by
    intro i
    induction i with
    | zero =>
      intro _
      constructor
      · simp [repeatIter]
      · simp [repeatIter, phiSum]
        rw [show List.range 1 = [0] from rfl]
        simp
    | succ i ih =>
      intro hin
      have hi := ih (by omega)
      constructor
      · rw [repeatIter_succ, convolveDense_sum,
          map_epsSkip_sum_of_clean _ (hiterclean i (by omega)), hi.1, hbase_skip]
        norm_num
      · rw [repeatIter_succ]
        have hoff : (convolveDense (repeatIter (toDense d) i) (toDense d)).offset =
            (repeatIter (toDense d) i).offset + (toDense d).offset := rfl
        rw [convolveDense_phiSum (repeatIter (toDense d) i) (toDense d) _
          (fun a => (((repeatIter (toDense d) i).offset : ℚ) + a))
          (fun b => (((toDense d).offset : ℚ) + b)) ?_]
        · rw [phiSum_epsSkip_of_clean _ _ (hiterclean i (by omega)), hi.2, hbase_skip,
            map_epsSkip_sum_of_clean _ (hiterclean i (by omega)), hi.1, hbase_w]
          push_cast
          ring
        · intro a b _ _
          rw [hoff]
          push_cast
          ring
  by_cases h0 : n = 0
  · subst h0
    rw [repeatConvolve, if_pos rfl, totalProbability_constant, expectation_constant]
    norm_num
  · have hm := main n (le_refl n)
    rw [repeatConvolve_eq_iter d n h0]
    constructor
    · rw [totalProbability_fromDense, map_epsSkip_sum_of_clean _ (hiterclean n (le_refl n))]
      exact hm.1
    · rw [expectation_fromDense, phiSum_epsSkip_of_clean _ _ (hiterclean n (le_refl n))]
      exact hm.2

theorem getLast?_map_range (s : ℕ) (h : 1 ≤ s) (f : ℕ → ℤ × ℚ) :
    ((List.range s).map f).getLast? = some (f (s - 1)) := by
  obtain ⟨t, rfl⟩ : ∃ t, s = t + 1 := ⟨s - 1, by omega⟩
  rw [List.range_succ, List.map_append]
  simp

theorem repeatIter_length (b : DenseDistribution) (hb : 1 ≤ b.values.length) (n : ℕ) :
    (repeatIter b n).values.length = n * (b.values.length - 1) + 1 := by
  induction n with
  | zero => simp [repeatIter]
  | succ n ih =>
    rw [repeatIter_succ, convolveDense_length, ih]
    obtain ⟨m, hm⟩ : ∃ m, b.values.length = m + 1 := ⟨b.values.length - 1, by omega⟩
    rw [hm]
    rw [Nat.succ_mul]
    omega

theorem toDense_uniformDie_length (s : ℕ) (h : 1 ≤ s) :
    (toDense (uniformDie s)).values.length = s ∧ (toDense (uniformDie s)).offset = 1 := by
  have hent := uniformDie_entries s
  have hne : ¬(uniformDie s).entries.isEmpty := by
    rw [hent]
    obtain ⟨t, rfl⟩ : ∃ t, s = t + 1 := ⟨s - 1, by omega⟩
    simp [List.range_succ]
  have hhead : (uniformDie s).entries.head? = some (1, 1 / (s : ℚ)) := by
    rw [hent]
    obtain ⟨t, rfl⟩ : ∃ t, s = t + 1 := ⟨s - 1, by omega⟩
    rw [List.range_succ_eq_map]
    simp
  have hlastq : (uniformDie s).entries.getLast? = some ((s : ℤ), 1 / (s : ℚ)) := by
    rw [hent, getLast?_map_range s h]
    have : ((s - 1 : ℕ) : ℤ) + 1 = (s : ℤ) := by omega
    rw [this]
  rw [toDense, if_neg hne]
  simp only [hhead, hlastq, Option.getD_some]
  constructor
  · rw [foldl_set_length, List.length_replicate]
    omega
  · simp

theorem uniformDie_entries_clean (s : ℕ) (hε : probEps < 1 / (s : ℚ)) :
    ∀ e ∈ (uniformDie s).entries, CleanValue e.2 := by
  intro e he
  rw [uniformDie_entries] at he
  rcases List.mem_map.mp he with ⟨i, _, hi⟩
  refine Or.inr ?_
  rw [← hi]
  have hpos : 0 < 1 / (s : ℚ) := lt_trans probEps_pos hε
  rw [abs_of_pos hpos]
  exact hε

theorem uniformDie_dense_skipSum (s : ℕ) (h : 1 ≤ s) (hε : probEps < 1 / (s : ℚ)) :
    ((toDense (uniformDie s)).values.map epsSkip).sum = 1 := by
  rw [skipDense_eq_entrySkip _ (uniformDie_sorted s),
    entrySkipSum_of_cleanP _ (uniformDie_entries_clean s hε)]
  exact totalProbability_uniformDie s h

theorem repeatIter_uniform_lower (s : ℕ) (h1 : 1 ≤ s) (hε : probEps < 1 / (s : ℚ)) :
    ∀ n : ℕ, 1 - probEps * ((n : ℚ) + ((s : ℚ) - 1) * ((n : ℚ) * ((n : ℚ) - 1) / 2)) ≤
      (repeatIter (toDense (uniformDie s)) n).values.sum := by
  have hlen := (toDense_uniformDie_length s h1).1
  have hnn := toDense_values_nonneg (uniformDie s) (uniformDie_nonneg s)
  intro n
  induction n with
  | zero =>
    simp [repeatIter]
  | succ n ih =>
    rw [repeatIter_succ, convolveDense_sum, uniformDie_dense_skipSum s h1 hε, mul_one]
    have hiter_nn := repeatIter_values_nonneg (toDense (uniformDie s)) hnn n
    have hskip := skipSum_ge (repeatIter (toDense (uniformDie s)) n).values hiter_nn
    have hli : ((repeatIter (toDense (uniformDie s)) n).values.length : ℚ) =
        (n : ℚ) * ((s : ℚ) - 1) + 1 := by
      rw [repeatIter_length _ (by omega : 1 ≤ (toDense (uniformDie s)).values.length) n, hlen]
      push_cast [Nat.cast_sub h1]
      ring
    rw [hli] at hskip
    have hexp : ((n : ℚ) + 1) + ((s : ℚ) - 1) * (((n : ℚ) + 1) * (((n : ℚ) + 1) - 1) / 2) =
        ((n : ℚ) + ((s : ℚ) - 1) * ((n : ℚ) * ((n : ℚ) - 1) / 2)) +
          (((n : ℚ) * ((s : ℚ) - 1) + 1)) := by
      ring
    push_cast
    push_cast at ih hskip
    nlinarith [probEps_pos]

theorem repeatConvolve_uniform_total (s n : ℕ) (h1 : 1 ≤ s) (hs20 : s ≤ 20)
    (hn1 : 1 ≤ n) (hn100 : n ≤ 100) :
    |totalProbability (repeatConvolve (uniformDie s) n) - 1| ≤ 1 / 10 ^ 8 := by
  have hsq : (1 : ℚ) ≤ (s : ℚ) := by exact_mod_cast h1
  have hsq20 : (s : ℚ) ≤ 20 := by exact_mod_cast hs20
  have hnq : (1 : ℚ) ≤ (n : ℚ) := by exact_mod_cast hn1
  have hnq100 : (n : ℚ) ≤ 100 := by exact_mod_cast hn100
  have hε : probEps < 1 / (s : ℚ) := by
    have h20 : (1 : ℚ) / 20 ≤ 1 / (s : ℚ) := by
      apply one_div_le_one_div_of_le
      · linarith
      · exact hsq20
    have : probEps < 1 / 20 := by norm_num [probEps]
    linarith
  have hupper := (totalProbability_repeatConvolve_le_one (uniformDie s) n
    (uniformDie_sorted s) (uniformDie_nonneg s)
    (le_of_eq (totalProbability_uniformDie s h1))).2
  have hnn := toDense_values_nonneg (uniformDie s) (uniformDie_nonneg s)
  have hiter_nn := repeatIter_values_nonneg (toDense (uniformDie s)) hnn n
  have hlen := (toDense_uniformDie_length s h1).1
  have hlower₀ := repeatIter_uniform_lower s h1 hε n
  have htot : totalProbability (repeatConvolve (uniformDie s) n) =
      ((repeatIter (toDense (uniformDie s)) n).values.map epsSkip).sum := by
    rw [repeatConvolve_eq_iter _ _ (by omega), totalProbability_fromDense]
  have hskip := skipSum_ge (repeatIter (toDense (uniformDie s)) n).values hiter_nn
  have hli : ((repeatIter (toDense (uniformDie s)) n).values.length : ℚ) =
      (n : ℚ) * ((s : ℚ) - 1) + 1 := by
    rw [repeatIter_length _ (by omega : 1 ≤ (toDense (uniformDie s)).values.length) n, hlen]
    push_cast [Nat.cast_sub h1]
    ring
  rw [hli] at hskip
  have hbound : probEps * (((n : ℚ) + ((s : ℚ) - 1) * ((n : ℚ) * ((n : ℚ) - 1) / 2)) +
      ((n : ℚ) * ((s : ℚ) - 1) + 1)) ≤ 1 / 10 ^ 8 := by
    have hB : (n : ℚ) * ((n : ℚ) + 1) ≤ 10100 := by nlinarith
    have hA : (s : ℚ) - 1 ≤ 19 := by linarith
    have hABn : ((s : ℚ) - 1) * ((n : ℚ) * ((n : ℚ) + 1)) ≤ 19 * 10100 := by
      have hBnn : 0 ≤ (n : ℚ) * ((n : ℚ) + 1) := by nlinarith
      nlinarith
    have heq : ((n : ℚ) + ((s : ℚ) - 1) * ((n : ℚ) * ((n : ℚ) - 1) / 2)) +
        ((n : ℚ) * ((s : ℚ) - 1) + 1) =
        ((s : ℚ) - 1) * ((n : ℚ) * ((n : ℚ) + 1)) / 2 + (n : ℚ) + 1 := by
      ring
    rw [heq]
    rw [probEps]
    nlinarith
  rw [abs_le]
  constructor
  · rw [htot]
    nlinarith [probEps_pos]
  · linarith

/-! Lemmas about the attack probability model. -/

theorem buildSingleDieDistribution_length (s : ℕ) (h : 1 ≤ s) (lucky : Bool) :
    (buildSingleDieDistribution s lucky).length = s + 1 := by
  cases lucky <;> simp [buildSingleDieDistribution] <;> omega

theorem buildSingleDie_false_eq (s : ℕ) :
    buildSingleDieDistribution s false = 0 :: List.replicate s (1 / (s : ℚ)) := by
  simp [buildSingleDieDistribution]

theorem buildSingleDie_true_eq (s : ℕ) :
    buildSingleDieDistribution s true =
      0 :: (1 / (s : ℚ)) * (1 / (s : ℚ)) ::
        List.replicate (s - 1) (1 / (s : ℚ) + (1 / (s : ℚ)) * (1 / (s : ℚ))) := by
  simp [buildSingleDieDistribution]

theorem buildSingleDie_getD (s : ℕ) (lucky : Bool) (v : ℕ) (h1 : 1 ≤ v) (hv : v ≤ s) :
    (buildSingleDieDistribution s lucky).getD v 0 =
      if lucky then
        (if v = 1 then (1 / (s : ℚ)) * (1 / (s : ℚ))
         else 1 / (s : ℚ) + (1 / (s : ℚ)) * (1 / (s : ℚ)))
      else 1 / (s : ℚ) := by
  obtain ⟨w, rfl⟩ : ∃ w, v = w + 1 := ⟨v - 1, by omega⟩
  cases lucky with
  | false =>
    rw [buildSingleDie_false_eq, List.getD_cons_succ]
    rw [List.getD_eq_getElem _ _ (by simp; omega)]
    simp [List.getElem_replicate]
  | true =>
    rw [buildSingleDie_true_eq, List.getD_cons_succ]
    rcases Nat.eq_zero_or_pos w with hw | hw
    · subst hw
      simp
    · obtain ⟨u, rfl⟩ : ∃ u, w = u + 1 := ⟨w - 1, by omega⟩
      rw [List.getD_cons_succ]
      rw [List.getD_eq_getElem _ _ (by simp; omega)]
      rw [List.getElem_replicate]
      simp only [if_pos trivial, if_neg (by omega : ¬u + 1 + 1 = 1)]

theorem buildSingleDie_mem_nonneg (s : ℕ) (lucky : Bool) :
    ∀ p ∈ buildSingleDieDistribution s lucky, 0 ≤ p := by
  intro p hp
  cases lucky with
  | false =>
    rw [buildSingleDie_false_eq] at hp
    rcases List.mem_cons.mp hp with h | h
    · simp [h]
    · rw [List.eq_of_mem_replicate h]
      positivity
  | true =>
    rw [buildSingleDie_true_eq] at hp
    rcases List.mem_cons.mp hp with h | h
    · simp [h]
    · rcases List.mem_cons.mp h with h2 | h2
      · rw [h2]
        positivity
      · rw [List.eq_of_mem_replicate h2]
        positivity

theorem buildSingleDie_getD_nonneg (s : ℕ) (lucky : Bool) (v : ℕ) :
    0 ≤ (buildSingleDieDistribution s lucky).getD v 0 := by
  rcases lt_or_ge v (buildSingleDieDistribution s lucky).length with h | h
  · rw [List.getD_eq_getElem _ _ h]
    exact buildSingleDie_mem_nonneg s lucky _ (List.getElem_mem h)
  · rw [List.getD_eq_default _ _ h]

theorem buildSingleDie_getD_pos (s : ℕ) (hs : 1 ≤ s) (lucky : Bool) (v : ℕ)
    (h1 : 1 ≤ v) (hv : v ≤ s) :
    0 < (buildSingleDieDistribution s lucky).getD v 0 := by
  rw [buildSingleDie_getD s lucky v h1 hv]
  have hq : 0 < (s : ℚ) := by exact_mod_cast hs
  cases lucky
  · simp only [Bool.false_eq_true, if_neg]
    positivity
  · simp only [if_pos trivial]
    split <;> positivity

theorem sumTo_zero (sdd : List ℚ) : sumTo sdd 0 = 0 := by simp [sumTo]

theorem sumTo_succ (sdd : List ℚ) (k : ℕ) :
    sumTo sdd (k + 1) = sumTo sdd k + sdd.getD (k + 1) 0 := by
  rw [sumTo, sumTo, List.range_succ, List.map_append, List.sum_append]
  simp

theorem sumTo_mono (sdd : List ℚ) (hnn : ∀ i, 0 ≤ sdd.getD i 0) {a b : ℕ} (hab : a ≤ b) :
    sumTo sdd a ≤ sumTo sdd b := by
  induction b with
  | zero =>
    have : a = 0 := by omega
    rw [this]
  | succ b ih =>
    rcases Nat.lt_or_ge a (b + 1) with h | h
    · have hab' : a ≤ b := by omega
      calc sumTo sdd a ≤ sumTo sdd b := ih hab'
        _ ≤ sumTo sdd (b + 1) := by rw [sumTo_succ]; have := hnn (b + 1); linarith
    · have : a = b + 1 := by omega
      rw [this]

theorem sumTo_nonneg (sdd : List ℚ) (hnn : ∀ i, 0 ≤ sdd.getD i 0) (k : ℕ) :
    0 ≤ sumTo sdd k := by
  have := sumTo_mono sdd hnn (Nat.zero_le k)
  rw [sumTo_zero] at this
  exact this

theorem sumTo_strict (sdd : List ℚ) (hnn : ∀ i, 0 ≤ sdd.getD i 0) {a b : ℕ}
    (hab : a < b) (hpos : 0 < sdd.getD (a + 1) 0) : sumTo sdd a < sumTo sdd b := by
  have h1 : sumTo sdd a < sumTo sdd (a + 1) := by
    rw [sumTo_succ]
    linarith
  exact lt_of_lt_of_le h1 (sumTo_mono sdd hnn (by omega))

theorem buildSingleDie_total (s : ℕ) (h : 1 ≤ s) (lucky : Bool) :
    sumTo (buildSingleDieDistribution s lucky) s = 1 := by
  have hq : (s : ℚ) ≠ 0 := by
    have : 0 < (s : ℚ) := by exact_mod_cast h
    linarith
  cases lucky with
  | false =>
    rw [sumTo, sum_map_range]
    have hcon : ∀ i ∈ Finset.range s,
        (buildSingleDieDistribution s false).getD (i + 1) 0 = 1 / (s : ℚ) := by
      intro i hi
      rw [buildSingleDie_getD s false (i + 1) (by omega)
        (by have := Finset.mem_range.mp hi; omega)]
      simp
    rw [Finset.sum_congr rfl hcon, Finset.sum_const, Finset.card_range]
    field_simp
  | true =>
    rw [sumTo, sum_map_range]
    obtain ⟨t, rfl⟩ : ∃ t, s = t + 1 := ⟨s - 1, by omega⟩
    rw [Finset.sum_range_succ']
    have hcon : ∀ i ∈ Finset.range t,
        (buildSingleDieDistribution (t + 1) true).getD (i + 1 + 1) 0 =
          1 / ((t + 1 : ℕ) : ℚ) + (1 / ((t + 1 : ℕ) : ℚ)) * (1 / ((t + 1 : ℕ) : ℚ)) := by
      intro i hi
      rw [buildSingleDie_getD (t + 1) true (i + 1 + 1) (by omega)
        (by have := Finset.mem_range.mp hi; omega)]
      simp only [if_pos trivial, if_neg (by omega : ¬i + 1 + 1 = 1)]
    rw [Finset.sum_congr rfl hcon]
    rw [buildSingleDie_getD (t + 1) true (0 + 1) (by omega) (by omega)]
    simp only [if_pos trivial, if_pos rfl]
    rw [Finset.sum_const, Finset.card_range]
    have hq' : ((t + 1 : ℕ) : ℚ) ≠ 0 := hq
    push_cast at hq' ⊢
    field_simp
    ring

theorem probabilityOfFace_eq (s : ℕ) (hs : 1 ≤ s) (lucky : Bool) (adv : AdvantageState)
    (f : ℕ) (h1 : 1 ≤ f) (hf : f ≤ s) :
    probabilityOfFace (buildSingleDieDistribution s lucky) f adv =
      cdfOfState (sumTo (buildSingleDieDistribution s lucky)) adv f -
        cdfOfState (sumTo (buildSingleDieDistribution s lucky)) adv (f - 1) := by
  have hlen : (buildSingleDieDistribution s lucky).length - 1 = s := by
    rw [buildSingleDieDistribution_length s hs lucky]
    omega
  have hminf : min (max f 1) ((buildSingleDieDistribution s lucky).length - 1) = f := by
    rw [hlen]; omega
  have hminb : min (f - 1) ((buildSingleDieDistribution s lucky).length - 1) = f - 1 := by
    rw [hlen]; omega
  obtain ⟨w, rfl⟩ : ∃ w, f = w + 1 := ⟨f - 1, by omega⟩
  cases adv with
  | normal =>
    simp only [probabilityOfFace, cdfOfState, Nat.add_sub_cancel]
    rw [sumTo_succ]
    ring
  | advantage =>
    simp only [probabilityOfFace, cdfOfState]
    rw [hminf, hminb]
  | disadvantage =>
    simp only [probabilityOfFace, cdfOfState]
    rw [hminf, hminb]
    simp only [Nat.add_sub_cancel]
    ring

theorem cdfOfState_zero (F : ℕ → ℚ) (adv : AdvantageState) (h : F 0 = 0) :
    cdfOfState F adv 0 = 0 := by
  cases adv <;> simp [cdfOfState, h]

theorem cdfOfState_top (F : ℕ → ℚ) (adv : AdvantageState) (k : ℕ) (h : F k = 1) :
    cdfOfState F adv k = 1 := by
  cases adv <;> simp [cdfOfState, h]

theorem attackFold_spec (input : AttackCheckInput) (abd : ProbabilityDistribution)
    (sdd : List ℚ) (k : ℕ) :
    (List.range k).foldl (attackFaceStep input abd sdd) ⟨0, 0, 0⟩ =
      ⟨(Finset.range k).sum (missContribution input abd sdd),
       (Finset.range k).sum (hitContribution input abd sdd),
       (Finset.range k).sum (critContribution input abd sdd)⟩ := by
  induction k with
  | zero => simp
  | succ k ih =>
    rw [List.range_succ, List.foldl_append, ih]
    simp only [List.foldl_cons, List.foldl_nil]
    rw [Finset.sum_range_succ, Finset.sum_range_succ, Finset.sum_range_succ]
    simp only [attackFaceStep, missContribution, hitContribution, critContribution]
    split_ifs with hm hc
    · simp
    · simp
    · simp

theorem contributions_sum (input : AttackCheckInput) (abd : ProbabilityDistribution)
    (sdd : List ℚ) (i : ℕ) :
    missContribution input abd sdd i + hitContribution input abd sdd i +
      critContribution input abd sdd i = probabilityOfFace sdd (i + 1) input.advantageState := by
  simp only [missContribution, hitContribution, critContribution]
  split_ifs <;> ring

theorem calculateAttackOutcomeProbabilities_ok (input : AttackCheckInput)
    (p : AttackOutcomeProbabilities)
    (h : calculateAttackOutcomeProbabilities input = .ok p) :
    2 ≤ input.rules.dieSides ∧
      ∃ abd, buildAttackBonusDistribution input.attackBonusExpression = .ok abd ∧
        p = (List.range input.rules.dieSides).foldl (attackFaceStep input abd
          (buildSingleDieDistribution input.rules.dieSides input.halflingLucky))
          ⟨0, 0, 0⟩ := by
  rw [calculateAttackOutcomeProbabilities] at h
  by_cases h2 : input.rules.dieSides < 2
  · rw [if_pos h2] at h
    cases h
  · rw [if_neg h2] at h
    refine ⟨by omega, ?_⟩
    cases hb : buildAttackBonusDistribution input.attackBonusExpression with
    | error e =>
      rw [hb] at h
      simp only [bind, Except.bind] at h
      exact Except.noConfusion h
    | ok abd =>
      rw [hb] at h
      simp only [bind, Except.bind] at h
      refine ⟨abd, rfl, ?_⟩
      cases h
      rfl

theorem attack_probs_sum_one (input : AttackCheckInput) (p : AttackOutcomeProbabilities)
    (h : calculateAttackOutcomeProbabilities input = .ok p) :
    p.miss + p.hit + p.critical = 1 := by
  obtain ⟨h2, abd, _, hp⟩ := calculateAttackOutcomeProbabilities_ok input p h
  subst hp
  rw [attackFold_spec]
  simp only
  rw [← Finset.sum_add_distrib, ← Finset.sum_add_distrib]
  have hcon : ∀ i ∈ Finset.range input.rules.dieSides,
      missContribution input abd
          (buildSingleDieDistribution input.rules.dieSides input.halflingLucky) i +
        hitContribution input abd
          (buildSingleDieDistribution input.rules.dieSides input.halflingLucky) i +
        critContribution input abd
          (buildSingleDieDistribution input.rules.dieSides input.halflingLucky) i =
      cdfOfState (sumTo (buildSingleDieDistribution input.rules.dieSides input.halflingLucky))
          input.advantageState (i + 1) -
        cdfOfState (sumTo (buildSingleDieDistribution input.rules.dieSides input.halflingLucky))
          input.advantageState i := by
    intro i hi
    rw [contributions_sum]
    have hlt := Finset.mem_range.mp hi
    rw [probabilityOfFace_eq input.rules.dieSides (by omega) input.halflingLucky
      input.advantageState (i + 1) (by omega) (by omega)]
    simp
  rw [Finset.sum_congr rfl hcon, Finset.sum_range_sub]
  rw [cdfOfState_zero _ _ (sumTo_zero _),
    cdfOfState_top _ _ _ (buildSingleDie_total input.rules.dieSides (by omega)
      input.halflingLucky)]
  norm_num

theorem probabilityAtLeast_nonneg (d : ProbabilityDistribution) (hn : EntriesNonneg d)
    (t : ℚ) : 0 ≤ probabilityAtLeast d t := by
  refine List.sum_nonneg ?_
  intro x hx
  obtain ⟨e, he, rfl⟩ := List.mem_map.mp hx
  exact hn e (List.mem_of_mem_filter he)

theorem filter_snd_sum_le (P : ℤ × ℚ → Bool) (l : List (ℤ × ℚ)) (hn : ∀ e ∈ l, 0 ≤ e.2) :
    ((l.filter P).map (fun e => e.2)).sum ≤ (l.map (fun e => e.2)).sum := by
  induction l with
  | nil => simp
  | cons e rest ih =>
    have h0 := hn e (List.mem_cons_self e rest)
    have ih' := ih (fun x hx => hn x (List.mem_cons_of_mem _ hx))
    by_cases hP : P e = true
    · rw [List.filter_cons_of_pos hP, List.map_cons, List.sum_cons, List.map_cons,
        List.sum_cons]
      linarith
    · rw [List.filter_cons_of_neg hP, List.map_cons, List.sum_cons]
      linarith

theorem probabilityAtLeast_le_total (d : ProbabilityDistribution) (hn : EntriesNonneg d)
    (t : ℚ) : probabilityAtLeast d t ≤ totalProbability d :=
  filter_snd_sum_le _ d.entries hn

theorem probabilityAtLeast_antitone (d : ProbabilityDistribution) (hn : EntriesNonneg d)
    {t₁ t₂ : ℚ} (h : t₁ ≤ t₂) : probabilityAtLeast d t₂ ≤ probabilityAtLeast d t₁ := by
  rw [probabilityAtLeast, probabilityAtLeast]
  have key : ∀ l : List (ℤ × ℚ), (∀ e ∈ l, 0 ≤ e.2) →
      ((l.filter (fun e => t₂ ≤ (e.1 : ℚ))).map (fun e => e.2)).sum ≤
        ((l.filter (fun e => t₁ ≤ (e.1 : ℚ))).map (fun e => e.2)).sum := by
    intro l
    induction l with
    | nil => intro _; simp
    | cons e rest ih =>
      intro hnn
      have h0 := hnn e (List.mem_cons_self e rest)
      have ih' := ih (fun x hx => hnn x (List.mem_cons_of_mem _ hx))
      by_cases h2 : t₂ ≤ (e.1 : ℚ)
      · have h1 : t₁ ≤ (e.1 : ℚ) := le_trans h h2
        rw [List.filter_cons_of_pos (by simpa using h2),
          List.filter_cons_of_pos (by simpa using h1), List.map_cons, List.sum_cons,
          List.map_cons, List.sum_cons]
        linarith
      · rw [List.filter_cons_of_neg (by simpa using h2)]
        by_cases h1 : t₁ ≤ (e.1 : ℚ)
        · rw [List.filter_cons_of_pos (by simpa using h1), List.map_cons, List.sum_cons]
          linarith
        · rw [List.filter_cons_of_neg (by simpa using h1)]
          exact ih'
  exact key d.entries hn

theorem buildAttackBonusDistribution_eq (components : List ExpressionComponent) :
    buildAttackBonusDistribution components =
      components.foldlM attackBonusStep (constant 0) := rfl

theorem attackBonusStep_facts (acc : ProbabilityDistribution) (c : ExpressionComponent)
    (d : ProbabilityDistribution) (hs : Sorted acc) (hn : EntriesNonneg acc)
    (ht : totalProbability acc ≤ 1) (h : attackBonusStep acc c = .ok d) :
    Sorted d ∧ EntriesNonneg d ∧ totalProbability d ≤ 1 := by
  cases c with
  | const v =>
    simp only [attackBonusStep] at h
    cases h
    exact ⟨shift_sorted acc v, shift_nonneg acc v hn,
      by rw [totalProbability_shift]; exact ht⟩
  | dice count sides sign =>
    simp only [attackBonusStep] at h
    by_cases h0 : sides = 0
    · rw [uniformDieE, if_pos h0] at h
      simp only [bind, Except.bind] at h
      exact Except.noConfusion h
    · rw [uniformDieE, if_neg h0] at h
      simp only [bind, Except.bind] at h
      have h1 : 1 ≤ sides := by omega
      have hds : Sorted (repeatConvolve (uniformDie sides) count) :=
        repeatConvolve_sorted _ _
      have hdn : EntriesNonneg (repeatConvolve (uniformDie sides) count) :=
        repeatConvolve_nonneg _ _ (uniformDie_nonneg sides)
      have hdt := totalProbability_repeatConvolve_le_one (uniformDie sides) count
        (uniformDie_sorted sides) (uniformDie_nonneg sides)
        (le_of_eq (totalProbability_uniformDie sides h1))
      set dd := if sign < 0 then
          mapOutcomes (repeatConvolve (uniformDie sides) count) (fun o => -o)
        else repeatConvolve (uniformDie sides) count with hdd
      have hdds : Sorted dd := by
        rw [hdd]; split
        · exact mapOutcomes_sorted _ _
        · exact hds
      have hddn : EntriesNonneg dd := by
        rw [hdd]; split
        · exact mapOutcomes_nonneg _ _ hdn
        · exact hdn
      have hddt : 0 ≤ totalProbability dd ∧ totalProbability dd ≤ 1 := by
        rw [hdd]; split
        · rw [totalProbability_mapOutcomes]; exact hdt
        · exact hdt
      cases h
      refine ⟨convolve_sorted acc dd, convolve_nonneg acc dd hn hddn, ?_⟩
      obtain ⟨_, hle⟩ := totalProbability_convolve_le acc dd hs hdds hn hddn
      have htn := totalProbability_nonneg acc hn
      calc totalProbability (convolve acc dd) ≤ totalProbability acc * totalProbability dd :=
            hle
        _ ≤ 1 := by nlinarith [hddt.1, hddt.2]

theorem buildAttackBonus_facts (components : List ExpressionComponent)
    (d : ProbabilityDistribution) (h : buildAttackBonusDistribution components = .ok d) :
    Sorted d ∧ EntriesNonneg d ∧ totalProbability d ≤ 1 := by
  rw [buildAttackBonusDistribution_eq] at h
  have key : ∀ (cs : List ExpressionComponent) (acc : ProbabilityDistribution),
      Sorted acc → EntriesNonneg acc → totalProbability acc ≤ 1 →
      cs.foldlM attackBonusStep acc = .ok d →
      Sorted d ∧ EntriesNonneg d ∧ totalProbability d ≤ 1 := by
    intro cs
    induction cs with
    | nil =>
      intro acc hs hn ht hfold
      simp only [List.foldlM_nil, pure, Except.pure] at hfold
      cases hfold
      exact ⟨hs, hn, ht⟩
    | cons c rest ih =>
      intro acc hs hn ht hfold
      rw [List.foldlM_cons] at hfold
      cases hstep : attackBonusStep acc c with
      | error e =>
        rw [hstep] at hfold
        simp only [bind, Except.bind] at hfold
        exact Except.noConfusion hfold
      | ok acc' =>
        rw [hstep] at hfold
        simp only [bind, Except.bind] at hfold
        obtain ⟨hs', hn', ht'⟩ := attackBonusStep_facts acc c acc' hs hn ht hstep
        exact ih acc' hs' hn' ht' hfold
  exact key components (constant 0) (constant_sorted 0) (constant_nonneg 0)
    (le_of_eq (totalProbability_constant 0)) h

theorem abel_weight_sum (G w : ℕ → ℚ) (s : ℕ) (hG0 : G 0 = 0) (hGs : G s = 1)
    (hws : w s = 1) :
    (Finset.range s).sum (fun i => (G (i + 1) - G i) * w (i + 1)) =
      1 - (Finset.range s).sum (fun i => G i * (w (i + 1) - w i)) := by
  have hsplit : ∀ i ∈ Finset.range s, (G (i + 1) - G i) * w (i + 1) =
      (G (i + 1) * w (i + 1) - G i * w i) - G i * (w (i + 1) - w i) := by
    intro i _
    ring
  rw [Finset.sum_congr rfl hsplit, Finset.sum_sub_distrib,
    Finset.sum_range_sub (fun i => G i * w i), hG0, hGs, hws]
  ring

theorem attackWeight_zero (input : AttackCheckInput) (abd : ProbabilityDistribution)
    (hs : 2 ≤ input.rules.dieSides) : attackWeight input abd 0 = 0 := by
  rw [attackWeight, if_neg (by omega), if_pos (by omega)]

theorem attackWeight_one (input : AttackCheckInput) (abd : ProbabilityDistribution)
    (hs : 2 ≤ input.rules.dieSides) : attackWeight input abd 1 = 0 := by
  rw [attackWeight, if_neg (by omega), if_pos (by omega)]

theorem attackWeight_top (input : AttackCheckInput) (abd : ProbabilityDistribution) :
    attackWeight input abd input.rules.dieSides = 1 := by
  rw [attackWeight, if_pos rfl]

theorem attackWeight_mid (input : AttackCheckInput) (abd : ProbabilityDistribution)
    (f : ℕ) (h2 : 2 ≤ f) (hne : f ≠ input.rules.dieSides) :
    attackWeight input abd f = probabilityAtLeast abd (input.armorClass - (f : ℚ)) := by
  rw [attackWeight, if_neg hne, if_neg (by omega)]

theorem attackWeight_mono (input : AttackCheckInput) (abd : ProbabilityDistribution)
    (hn : EntriesNonneg abd) (ht : totalProbability abd ≤ 1)
    (hs : 2 ≤ input.rules.dieSides) (i : ℕ) (hi : i < input.rules.dieSides) :
    attackWeight input abd i ≤ attackWeight input abd (i + 1) := by
  by_cases htop : i + 1 = input.rules.dieSides
  · rw [htop, attackWeight_top]
    by_cases h1 : i ≤ 1
    · rw [attackWeight, if_neg (by omega), if_pos h1]
      norm_num
    · rw [attackWeight_mid input abd i (by omega) (by omega)]
      exact le_trans (probabilityAtLeast_le_total abd hn _) ht
  · by_cases h1 : i ≤ 1
    · rcases Nat.le_one_iff_eq_zero_or_eq_one.mp h1 with h0 | h0
      · subst h0
        rw [attackWeight_zero input abd hs, attackWeight_one input abd hs]
      · subst h0
        rw [attackWeight_one input abd hs,
          attackWeight_mid input abd 2 (by omega) (by omega)]
        exact probabilityAtLeast_nonneg abd hn _
    · rw [attackWeight_mid input abd i (by omega) (by omega),
        attackWeight_mid input abd (i + 1) (by omega) htop]
      refine probabilityAtLeast_antitone abd hn ?_
      push_cast
      linarith

theorem hitcrit_face (input : AttackCheckInput) (abd : ProbabilityDistribution)
    (sdd : List ℚ) (hm : input.rules.autoMissFaces = [1])
    (hc : input.rules.autoCritFaces = [(input.rules.dieSides : ℤ)])
    (h2 : 2 ≤ input.rules.dieSides) (i : ℕ) (hi : i < input.rules.dieSides) :
    hitContribution input abd sdd i + critContribution input abd sdd i =
      probabilityOfFace sdd (i + 1) input.advantageState *
        attackWeight input abd (i + 1) := by
  simp only [hitContribution, critContribution, hm, hc, List.mem_singleton]
  by_cases h0 : i = 0
  · subst h0
    rw [if_pos (by norm_num), if_pos (by norm_num), attackWeight_one input abd h2]
    ring
  · by_cases htop : i + 1 = input.rules.dieSides
    · rw [if_neg (by push_cast; omega), if_pos (by push_cast; omega),
        if_neg (by push_cast; omega), if_pos (by push_cast; omega),
        htop, attackWeight_top]
      ring
    · rw [if_neg (by push_cast; omega), if_neg (by push_cast; omega),
        if_neg (by push_cast; omega), if_neg (by push_cast; omega),
        attackWeight_mid input abd (i + 1) (by omega) htop]
      push_cast
      ring

theorem hitcrit_eq (input : AttackCheckInput) (p : AttackOutcomeProbabilities)
    (abd : ProbabilityDistribution)
    (hm : input.rules.autoMissFaces = [1])
    (hc : input.rules.autoCritFaces = [(input.rules.dieSides : ℤ)])
    (hb : buildAttackBonusDistribution input.attackBonusExpression = .ok abd)
    (h : calculateAttackOutcomeProbabilities input = .ok p) :
    p.hit + p.critical =
      1 - (Finset.range input.rules.dieSides).sum (fun i =>
        cdfOfState (sumTo (buildSingleDieDistribution input.rules.dieSides input.halflingLucky))
          input.advantageState i *
        (attackWeight input abd (i + 1) - attackWeight input abd i)) := by
  obtain ⟨h2, abd', hb', hp⟩ := calculateAttackOutcomeProbabilities_ok input p h
  rw [hb] at hb'
  injection hb' with habd
  subst habd
  subst hp
  rw [attackFold_spec]
  simp only
  rw [← Finset.sum_add_distrib]
  have hface : ∀ i ∈ Finset.range input.rules.dieSides,
      hitContribution input abd
          (buildSingleDieDistribution input.rules.dieSides input.halflingLucky) i +
        critContribution input abd
          (buildSingleDieDistribution input.rules.dieSides input.halflingLucky) i =
      (cdfOfState
          (sumTo (buildSingleDieDistribution input.rules.dieSides input.halflingLucky))
          input.advantageState (i + 1) -
        cdfOfState
          (sumTo (buildSingleDieDistribution input.rules.dieSides input.halflingLucky))
          input.advantageState i) * attackWeight input abd (i + 1) := by
    intro i hi
    have hlt := Finset.mem_range.mp hi
    rw [hitcrit_face input abd _ hm hc h2 i hlt,
      probabilityOfFace_eq input.rules.dieSides (by omega) input.halflingLucky
        input.advantageState (i + 1) (by omega) (by omega)]
    simp
  rw [Finset.sum_congr rfl hface]
  exact abel_weight_sum
    (cdfOfState (sumTo (buildSingleDieDistribution input.rules.dieSides input.halflingLucky))
      input.advantageState)
    (attackWeight input abd) input.rules.dieSides
    (cdfOfState_zero _ _ (sumTo_zero _))
    (cdfOfState_top _ _ _ (buildSingleDie_total input.rules.dieSides (by omega)
      input.halflingLucky))
    (attackWeight_top input abd)

theorem deltaSum_pos (input : AttackCheckInput) (abd : ProbabilityDistribution)
    (hn : EntriesNonneg abd) (ht : totalProbability abd ≤ 1)
    (h2 : 2 ≤ input.rules.dieSides) :
    0 < (Finset.range input.rules.dieSides).sum (fun i =>
      (sumTo (buildSingleDieDistribution input.rules.dieSides input.halflingLucky) i -
        sumTo (buildSingleDieDistribution input.rules.dieSides input.halflingLucky) i *
          sumTo (buildSingleDieDistribution input.rules.dieSides input.halflingLucky) i) *
      (attackWeight input abd (i + 1) - attackWeight input abd i)) := by
  have hnn : ∀ j, 0 ≤ (buildSingleDieDistribution input.rules.dieSides
      input.halflingLucky).getD j 0 :=
    buildSingleDie_getD_nonneg input.rules.dieSides input.halflingLucky
  have hnonneg : ∀ i ∈ Finset.range input.rules.dieSides,
      0 ≤ (sumTo (buildSingleDieDistribution input.rules.dieSides input.halflingLucky) i -
        sumTo (buildSingleDieDistribution input.rules.dieSides input.halflingLucky) i *
          sumTo (buildSingleDieDistribution input.rules.dieSides input.halflingLucky) i) *
      (attackWeight input abd (i + 1) - attackWeight input abd i) := by
    intro i hi
    have hlt := Finset.mem_range.mp hi
    have hF0 := sumTo_nonneg _ hnn i
    have hF1 : sumTo (buildSingleDieDistribution input.rules.dieSides input.halflingLucky) i
        ≤ 1 := by
      rw [← buildSingleDie_total input.rules.dieSides (by omega) input.halflingLucky]
      exact sumTo_mono _ hnn (le_of_lt hlt)
    have hdelta := sub_nonneg.mpr (attackWeight_mono input abd hn ht h2 i hlt)
    exact mul_nonneg (by nlinarith) hdelta
  have hsum1 : (Finset.range input.rules.dieSides).sum
      (fun i => attackWeight input abd (i + 1) - attackWeight input abd i) = 1 := by
    rw [Finset.sum_range_sub (attackWeight input abd), attackWeight_top input abd,
      attackWeight_zero input abd h2]
    ring
  obtain ⟨i₀, hi₀, hpos⟩ : ∃ i ∈ Finset.range input.rules.dieSides,
      0 < attackWeight input abd (i + 1) - attackWeight input abd i := by
    by_contra hcon
    push_neg at hcon
    have := Finset.sum_nonpos hcon
    rw [hsum1] at this
    linarith
  have hi₀1 : 1 ≤ i₀ := by
    by_contra hcon
    have h0 : i₀ = 0 := by omega
    rw [h0, attackWeight_one input abd h2, attackWeight_zero input abd h2] at hpos
    linarith
  have hlt := Finset.mem_range.mp hi₀
  have hFpos : 0 < sumTo (buildSingleDieDistribution input.rules.dieSides
      input.halflingLucky) i₀ := by
    have := sumTo_strict _ hnn (show 0 < i₀ by omega)
      (buildSingleDie_getD_pos input.rules.dieSides (by omega) input.halflingLucky
        (0 + 1) (by omega) (by omega))
    rw [sumTo_zero] at this
    exact this
  have hFlt : sumTo (buildSingleDieDistribution input.rules.dieSides
      input.halflingLucky) i₀ < 1 := by
    rw [← buildSingleDie_total input.rules.dieSides (by omega) input.halflingLucky]
    exact sumTo_strict _ hnn hlt
      (buildSingleDie_getD_pos input.rules.dieSides (by omega) input.halflingLucky
        (i₀ + 1) (by omega) (by omega))
  refine Finset.sum_pos' hnonneg ⟨i₀, hi₀, ?_⟩
  exact mul_pos (by nlinarith) hpos

/-- C1: for every AttackCheckInput whose rule config passes validation
(integer dieSides > 1), `calculateAttackOutcomeProbabilities` returns
probabilities miss, hit, critical whose sum equals 1 — exactly, in the ℚ
model — for every advantage state, every auto-miss/auto-crit face set,
every attack-bonus expression, and with or without halflingLucky. -/
theorem c1_outcome_probabilities_sum_to_one (input : AttackCheckInput)
    (p : AttackOutcomeProbabilities)
    (h : calculateAttackOutcomeProbabilities input = .ok p) :
    p.miss + p.hit + p.critical = 1 :=
  attack_probs_sum_one input p h

theorem c1_witness :
    calculateAttackOutcomeProbabilities c1Input = .ok c1Probs ∧
      c1Probs.miss + c1Probs.hit + c1Probs.critical = 1 :=
  ⟨by with_unfolding_all rfl,
    c1_outcome_probabilities_sum_to_one c1Input c1Probs (by with_unfolding_all rfl)⟩

/-- Counterexample to the literal C6: two inputs identical except for
advantageState on which hit + critical is NOT strictly greater under
advantage than under normal — when every face already hits, both states
give hit + critical = 1. -/
theorem c6_counterexample :
    c6CexA = { c6CexN with advantageState := AdvantageState.advantage } ∧
      calculateAttackOutcomeProbabilities c6CexN = .ok c6CexProbsN ∧
      calculateAttackOutcomeProbabilities c6CexA = .ok c6CexProbsA ∧
      ¬(c6CexProbsN.hit + c6CexProbsN.critical <
        c6CexProbsA.hit + c6CexProbsA.critical) :=
  ⟨rfl, by with_unfolding_all rfl, by with_unfolding_all rfl,
    by norm_num [c6CexProbsN, c6CexProbsA]⟩

/-- C6 (corrected): the strict ordering
disadvantage < normal < advantage of hit + critical holds for the
standard rule config — auto-miss exactly on face 1 and auto-crit exactly
on the top face — for every armor class, bonus expression, die size and
halfling-luck flag; it does not hold for arbitrary face sets
(`c6_counterexample`). -/
theorem c6_advantage_strictly_orders_hit_plus_critical (base : AttackCheckInput)
    (pN pA pD : AttackOutcomeProbabilities)
    (hm : base.rules.autoMissFaces = [1])
    (hc : base.rules.autoCritFaces = [(base.rules.dieSides : ℤ)])
    (hA : calculateAttackOutcomeProbabilities
      { base with advantageState := AdvantageState.advantage } = .ok pA)
    (hN : calculateAttackOutcomeProbabilities
      { base with advantageState := AdvantageState.normal } = .ok pN)
    (hD : calculateAttackOutcomeProbabilities
      { base with advantageState := AdvantageState.disadvantage } = .ok pD) :
    pD.hit + pD.critical < pN.hit + pN.critical ∧
      pN.hit + pN.critical < pA.hit + pA.critical := by
  obtain ⟨h2A, abd, hb, _⟩ := calculateAttackOutcomeProbabilities_ok
    { base with advantageState := AdvantageState.advantage } pA hA
  have h2 : 2 ≤ base.rules.dieSides := h2A
  have hb' : buildAttackBonusDistribution base.attackBonusExpression = .ok abd := hb
  obtain ⟨_, hnn, htle⟩ := buildAttackBonus_facts _ abd hb'
  have heA : pA.hit + pA.critical = 1 - (Finset.range base.rules.dieSides).sum (fun i =>
      cdfOfState (sumTo (buildSingleDieDistribution base.rules.dieSides base.halflingLucky))
        AdvantageState.advantage i *
      (attackWeight base abd (i + 1) - attackWeight base abd i)) :=
    hitcrit_eq { base with advantageState := AdvantageState.advantage } pA abd hm hc hb' hA
  have heN : pN.hit + pN.critical = 1 - (Finset.range base.rules.dieSides).sum (fun i =>
      cdfOfState (sumTo (buildSingleDieDistribution base.rules.dieSides base.halflingLucky))
        AdvantageState.normal i *
      (attackWeight base abd (i + 1) - attackWeight base abd i)) :=
    hitcrit_eq { base with advantageState := AdvantageState.normal } pN abd hm hc hb' hN
  have heD : pD.hit + pD.critical = 1 - (Finset.range base.rules.dieSides).sum (fun i =>
      cdfOfState (sumTo (buildSingleDieDistribution base.rules.dieSides base.halflingLucky))
        AdvantageState.disadvantage i *
      (attackWeight base abd (i + 1) - attackWeight base abd i)) :=
    hitcrit_eq { base with advantageState := AdvantageState.disadvantage } pD abd hm hc hb' hD
  have hpos := deltaSum_pos base abd hnn htle h2
  constructor
  · have hdiff : (Finset.range base.rules.dieSides).sum (fun i =>
        cdfOfState (sumTo (buildSingleDieDistribution base.rules.dieSides base.halflingLucky))
          AdvantageState.disadvantage i *
        (attackWeight base abd (i + 1) - attackWeight base abd i)) -
      (Finset.range base.rules.dieSides).sum (fun i =>
        cdfOfState (sumTo (buildSingleDieDistribution base.rules.dieSides base.halflingLucky))
          AdvantageState.normal i *
        (attackWeight base abd (i + 1) - attackWeight base abd i)) =
      (Finset.range base.rules.dieSides).sum (fun i =>
        (sumTo (buildSingleDieDistribution base.rules.dieSides base.halflingLucky) i -
          sumTo (buildSingleDieDistribution base.rules.dieSides base.halflingLucky) i *
            sumTo (buildSingleDieDistribution base.rules.dieSides base.halflingLucky) i) *
        (attackWeight base abd (i + 1) - attackWeight base abd i)) := by
      rw [← Finset.sum_sub_distrib]
      refine Finset.sum_congr rfl ?_
      intro i _
      simp only [cdfOfState]
      ring
    rw [heD, heN]
    linarith
  · have hdiff : (Finset.range base.rules.dieSides).sum (fun i =>
        cdfOfState (sumTo (buildSingleDieDistribution base.rules.dieSides base.halflingLucky))
          AdvantageState.normal i *
        (attackWeight base abd (i + 1) - attackWeight base abd i)) -
      (Finset.range base.rules.dieSides).sum (fun i =>
        cdfOfState (sumTo (buildSingleDieDistribution base.rules.dieSides base.halflingLucky))
          AdvantageState.advantage i *
        (attackWeight base abd (i + 1) - attackWeight base abd i)) =
      (Finset.range base.rules.dieSides).sum (fun i =>
        (sumTo (buildSingleDieDistribution base.rules.dieSides base.halflingLucky) i -
          sumTo (buildSingleDieDistribution base.rules.dieSides base.halflingLucky) i *
            sumTo (buildSingleDieDistribution base.rules.dieSides base.halflingLucky) i) *
        (attackWeight base abd (i + 1) - attackWeight base abd i)) := by
      rw [← Finset.sum_sub_distrib]
      refine Finset.sum_congr rfl ?_
      intro i _
      simp only [cdfOfState]
      ring
    rw [heN, heA]
    linarith

theorem c6_witness :
    calculateAttackOutcomeProbabilities
        { c6Base with advantageState := AdvantageState.advantage } = .ok c6ProbsA ∧
      calculateAttackOutcomeProbabilities
        { c6Base with advantageState := AdvantageState.normal } = .ok c6ProbsN ∧
      calculateAttackOutcomeProbabilities
        { c6Base with advantageState := AdvantageState.disadvantage } = .ok c6ProbsD ∧
      (c6ProbsD.hit + c6ProbsD.critical < c6ProbsN.hit + c6ProbsN.critical ∧
        c6ProbsN.hit + c6ProbsN.critical < c6ProbsA.hit + c6ProbsA.critical) :=
  ⟨by with_unfolding_all rfl, by with_unfolding_all rfl, by with_unfolding_all rfl,
    c6_advantage_strictly_orders_hit_plus_critical c6Base c6ProbsN c6ProbsA c6ProbsD
      rfl rfl (by with_unfolding_all rfl) (by with_unfolding_all rfl)
      (by with_unfolding_all rfl)⟩

set_option maxRecDepth 8000 in
/-- Counterexample to the literal C2: a distribution produced by the
algebra whose total probability is not 1.  The 50-fold max order
statistic of a d2 has an entry of probability 2⁻⁵⁰ ≤ 1e-15, which the
dense pass of a 1-fold `repeatConvolve` prunes, leaving total
probability (2⁵⁰ − 1)/2⁵⁰. -/
theorem c2_counterexample :
    totalProbability (repeatConvolve (maxOfIndependent (uniformDie 2) 50) 1) ≠ 1 := by
  with_unfolding_all decide

/-- C2 (corrected): totals and ordering of the algebra's outputs.
`constant`, `uniformDie`, `shift`, `mapOutcomes`, and—on mass-1
input—`maxOfIndependent`/`minOfIndependent` give total probability
exactly 1 (resp. preserve the total), and every normalized output lists
unique outcomes in strictly ascending order; but the near-zero pruning
inside `convolve` and `repeatConvolve` can lose mass
(`c2_counterexample`), so for those the total only satisfies bounds:
within [0, total·total] for `convolve` of non-negative sorted inputs,
within [0, 1] for `repeatConvolve` of a sub-probability input, and
within 1e-8 of 1 for the n-fold repeat of a uniform die with at most 20
sides and n ≤ 100. -/
theorem c2_operation_totals :
    (∀ v : ℤ, totalProbability (constant v) = 1) ∧
    (∀ s : ℕ, 1 ≤ s → totalProbability (uniformDie s) = 1) ∧
    (∀ (d : ProbabilityDistribution) (k : ℤ),
      totalProbability (shift d k) = totalProbability d) ∧
    (∀ (d : ProbabilityDistribution) (f : ℤ → ℤ),
      totalProbability (mapOutcomes d f) = totalProbability d) ∧
    (∀ (d : ProbabilityDistribution) (n : ℕ), 1 ≤ n → totalProbability d = 1 →
      totalProbability (maxOfIndependent d n) = 1 ∧
        totalProbability (minOfIndependent d n) = 1) ∧
    (∀ l : List (ℤ × ℚ), Sorted (normalize l)) ∧
    (∀ a b : ProbabilityDistribution, Sorted (convolve a b)) ∧
    (∀ (d : ProbabilityDistribution) (n : ℕ), Sorted (repeatConvolve d n)) ∧
    (∀ a b : ProbabilityDistribution, Sorted a → Sorted b →
      EntriesNonneg a → EntriesNonneg b →
      0 ≤ totalProbability (convolve a b) ∧
        totalProbability (convolve a b) ≤ totalProbability a * totalProbability b) ∧
    (∀ (d : ProbabilityDistribution) (n : ℕ),
      Sorted d → EntriesNonneg d → totalProbability d ≤ 1 →
      0 ≤ totalProbability (repeatConvolve d n) ∧
        totalProbability (repeatConvolve d n) ≤ 1) ∧
    (∀ s n : ℕ, 1 ≤ s → s ≤ 20 → 1 ≤ n → n ≤ 100 →
      |totalProbability (repeatConvolve (uniformDie s) n) - 1| ≤ 1 / 10 ^ 8) :=
  ⟨totalProbability_constant, totalProbability_uniformDie, totalProbability_shift,
    totalProbability_mapOutcomes,
    fun d n h1 hd => ⟨totalProbability_maxOfIndependent d n h1 hd,
      totalProbability_minOfIndependent d n h1 hd⟩,
    normalize_sorted, convolve_sorted, repeatConvolve_sorted,
    totalProbability_convolve_le, totalProbability_repeatConvolve_le_one,
    repeatConvolve_uniform_total⟩

theorem c2_witness :
    totalProbability (uniformDie 6) = 1 ∧
      totalProbability (maxOfIndependent (uniformDie 6) 3) = 1 ∧
      |totalProbability (repeatConvolve (uniformDie 2) 1) - 1| ≤ 1 / 10 ^ 8 :=
  ⟨c2_operation_totals.2.1 6 (by decide),
    (c2_operation_totals.2.2.2.2.1 (uniformDie 6) 3 (by decide)
      (c2_operation_totals.2.1 6 (by decide))).1,
    c2_operation_totals.2.2.2.2.2.2.2.2.2.2 2 1 (by decide) (by decide) (by decide)
      (by decide)⟩

/-- C8: `applyDamageModifier` first floors the raw damage to the
non-negative integer s = max(0, ⌊raw⌋), then returns 0 when immune,
⌊s/2⌋ when resistant, s·2 when vulnerable and s unchanged when normal;
in particular 5 gives 2 / 10 / 0 under resistant / vulnerable /
immune. -/
theorem c8_apply_damage_modifier :
    (∀ rawDamage : ℚ,
      applyDamageModifier rawDamage DamageModifier.immune = 0 ∧
      applyDamageModifier rawDamage DamageModifier.resistant =
        ⌊((max 0 ⌊rawDamage⌋ : ℤ) : ℚ) / 2⌋ ∧
      applyDamageModifier rawDamage DamageModifier.vulnerable = max 0 ⌊rawDamage⌋ * 2 ∧
      applyDamageModifier rawDamage DamageModifier.normal = max 0 ⌊rawDamage⌋) ∧
    applyDamageModifier 5 DamageModifier.resistant = 2 ∧
    applyDamageModifier 5 DamageModifier.vulnerable = 10 ∧
    applyDamageModifier 5 DamageModifier.immune = 0 := by
  refine ⟨fun rawDamage => ⟨rfl, rfl, rfl, rfl⟩, ?_, ?_, ?_⟩ <;>
    with_unfolding_all decide

/-- C9: `calculateSaveSuccessProbability` is
clamp01((21 − ⌈difficultyClass − saveBonus⌉)/20), and
`calculateSaveExpectedDamage` reports saveFail = 1 − saveSuccess and
expectedDamage = saveFail·failMean + saveSuccess·successMean, as a pure
scalar combination (its definition takes only the two means, so no
distribution is built or consumed). -/
theorem c9_save_formulas (input : SaveCheckInput) (failDamageMean successDamageMean : ℚ) :
    calculateSaveSuccessProbability input =
      clamp01 ((21 - (⌈input.difficultyClass - input.saveBonus⌉ : ℚ)) / 20) ∧
    (calculateSaveExpectedDamage input failDamageMean successDamageMean).saveSuccessProbability =
      calculateSaveSuccessProbability input ∧
    (calculateSaveExpectedDamage input failDamageMean successDamageMean).saveFailProbability =
      1 - calculateSaveSuccessProbability input ∧
    (calculateSaveExpectedDamage input failDamageMean successDamageMean).expectedDamage =
      (1 - calculateSaveSuccessProbability input) * failDamageMean +
        calculateSaveSuccessProbability input * successDamageMean :=
  ⟨rfl, rfl, rfl, rfl⟩

theorem count_sum (s a : ℕ) (w : ℚ) (ha : a ≤ s) :
    (Finset.range s).sum (fun i => if i < a then (0 : ℚ) else w) = ((s - a : ℕ) : ℚ) * w := by
  induction s with
  | zero =>
    have : a = 0 := by omega
    subst this
    simp
  | succ s ih =>
    rcases Nat.lt_or_ge s a with h | h
    · have has : a = s + 1 := by omega
      subst has
      rw [Finset.sum_congr rfl (fun i hi => if_pos (Finset.mem_range.mp hi))]
      simp
    · rw [Finset.sum_range_succ, ih h, if_neg (by omega)]
      have : s + 1 - a = (s - a) + 1 := by omega
      rw [this]
      push_cast
      ring

/-- C10: for every positive side count and every reroll-low threshold —
absent, non-positive (plain uniform die), fractional (floored) or
overlarge (clamped to the side count) — the die distribution built by
`buildRerollLowDieDistribution` has total probability exactly 1. -/
theorem c10_reroll_low_total (sides : ℕ) (hs : 1 ≤ sides) (t : Option ℚ)
    (d : ProbabilityDistribution) (hd : buildRerollLowDieDistribution sides t = .ok d) :
    totalProbability d = 1 := by
  have hdie : uniformDieE sides = .ok (uniformDie sides) := by
    rw [uniformDieE, if_neg (by omega)]
  cases t with
  | none =>
    rw [buildRerollLowDieDistribution, hdie] at hd
    cases hd
    exact totalProbability_uniformDie sides hs
  | some tv =>
    rw [buildRerollLowDieDistribution] at hd
    by_cases h0 : tv ≤ 0
    · rw [if_pos h0, hdie] at hd
      cases hd
      exact totalProbability_uniformDie sides hs
    · rw [if_neg h0] at hd
      cases hd
      rw [fromEntries, totalProbability_normalize, List.map_map]
      have htv : (0 : ℚ) < tv := lt_of_not_ge h0
      have hth0 : 0 ≤ min (sides : ℤ) ⌊tv⌋ :=
        le_min (by exact_mod_cast Nat.zero_le sides) (Int.floor_nonneg.mpr (le_of_lt htv))
      have hths : min (sides : ℤ) ⌊tv⌋ ≤ (sides : ℤ) := min_le_left _ _
      have hcomp : ((fun e => e.2) ∘ (fun (i : ℕ) =>
          if ((i : ℤ) + 1) ≤ min (sides : ℤ) ⌊tv⌋ then
            (((i : ℤ) + 1), ((min (sides : ℤ) ⌊tv⌋ : ℤ) : ℚ) / ((sides : ℚ) * sides))
          else (((i : ℤ) + 1),
            1 / (sides : ℚ) + ((min (sides : ℤ) ⌊tv⌋ : ℤ) : ℚ) / ((sides : ℚ) * sides)))) =
          fun (i : ℕ) =>
            ((min (sides : ℤ) ⌊tv⌋ : ℤ) : ℚ) / ((sides : ℚ) * sides) +
              (if i < (min (sides : ℤ) ⌊tv⌋).toNat then 0 else 1 / (sides : ℚ)) := by
        funext i
        simp only [Function.comp]
        by_cases hc : ((i : ℤ) + 1) ≤ min (sides : ℤ) ⌊tv⌋
        · rw [if_pos hc, if_pos (by omega)]
          ring
        · rw [if_neg hc, if_neg (by omega)]
          ring
      rw [hcomp, sum_map_range, Finset.sum_add_distrib, Finset.sum_const,
        Finset.card_range, count_sum sides (min (sides : ℤ) ⌊tv⌋).toNat _ (by omega)]
      have hsq : (0 : ℚ) < (sides : ℚ) := by exact_mod_cast hs
      have hcast : (((min (sides : ℤ) ⌊tv⌋).toNat : ℕ) : ℚ) =
          ((min (sides : ℤ) ⌊tv⌋ : ℤ) : ℚ) := by
        exact_mod_cast congrArg Int.cast (Int.toNat_of_nonneg hth0)
      have hcast2 : ((sides - (min (sides : ℤ) ⌊tv⌋).toNat : ℕ) : ℚ) =
          (sides : ℚ) - ((min (sides : ℤ) ⌊tv⌋ : ℤ) : ℚ) := by
        rw [Nat.cast_sub (by omega)]
        rw [hcast]
      rw [hcast2]
      field_simp
      ring

theorem c10_witness :
    1 ≤ 6 ∧ buildRerollLowDieDistribution 6 (some (5 / 2)) = .ok c10Dist ∧
      totalProbability c10Dist = 1 :=
  ⟨by decide, by with_unfolding_all rfl,
    c10_reroll_low_total 6 (by decide) (some (5 / 2)) c10Dist
      (by with_unfolding_all rfl)⟩

theorem buildDamageDistribution_eq (expression : List ExpressionComponent)
    (criticalDiceMultiplier : ℚ) (rerollLowThreshold : Option ℚ) :
    buildDamageDistribution expression criticalDiceMultiplier rerollLowThreshold =
      if ¬(criticalDiceMultiplier.den = 1 ∧ 0 < criticalDiceMultiplier) then
        .error "criticalDiceMultiplier must be a positive integer"
      else expression.foldlM (damageStep criticalDiceMultiplier rerollLowThreshold)
        (constant 0) := rfl

theorem foldlM_map_step {α β : Type} (σ : α → α) (f g : β → α → Except String β)
    (hstep : ∀ acc c, f acc c = g acc (σ c)) :
    ∀ (l : List α) (acc : β), l.foldlM f acc = (l.map σ).foldlM g acc := by
  intro l
  induction l with
  | nil => intro acc; rfl
  | cons c rest ih =>
    intro acc
    rw [List.map_cons, List.foldlM_cons, List.foldlM_cons, hstep]
    cases g acc (σ c) with
    | error e => simp only [bind, Except.bind]
    | ok acc' =>
      simp only [bind, Except.bind]
      exact ih acc'

theorem one_num_toNat : (1 : ℚ).num.toNat = 1 := by
  rw [Rat.num_one]
  rfl

theorem damageStep_scale (m : ℚ) (t : Option ℚ) (acc : ProbabilityDistribution)
    (c : ExpressionComponent) :
    damageStep m t acc c = damageStep 1 t acc
      ((fun c => match c with
        | ExpressionComponent.dice count sides sign =>
          ExpressionComponent.dice (count * m.num.toNat) sides sign
        | ExpressionComponent.const value => ExpressionComponent.const value) c) := by
  cases c with
  | const v => rfl
  | dice count sides sign =>
    simp only [damageStep, one_num_toNat, Nat.mul_one]

theorem buildDamage_scale (expression : List ExpressionComponent) (m : ℚ) (t : Option ℚ)
    (hden : m.den = 1) (hpos : 0 < m) :
    buildDamageDistribution expression m t =
      buildDamageDistribution (scaleDiceCounts m.num.toNat expression) 1 t := by
  rw [buildDamageDistribution_eq, buildDamageDistribution_eq,
    if_neg (not_not_intro ⟨hden, hpos⟩),
    if_neg (not_not_intro ⟨Rat.den_one, one_pos⟩), scaleDiceCounts]
  exact foldlM_map_step _ _ _ (damageStep_scale m t) expression (constant 0)

/-- C3: for every damage expression, positive-integer multiplier m and
reroll threshold, `buildDamageDistribution` with multiplier m equals
`buildDamageDistribution` with multiplier 1 on the expression whose dice
counts are scaled by m (constant terms untouched); and for 1d6+2 the
expected damage is 11/2 with multiplier 1 and 9 with multiplier 2. -/
theorem c3_multiplier_scales_only_dice :
    (∀ (expression : List ExpressionComponent) (m : ℚ) (t : Option ℚ),
      m.den = 1 → 0 < m →
      buildDamageDistribution expression m t =
        buildDamageDistribution (scaleDiceCounts m.num.toNat expression) 1 t) ∧
    buildDamageDistribution [ExpressionComponent.dice 1 6 1, ExpressionComponent.const 2]
      1 none = .ok c3DistOne ∧
    expectation c3DistOne = 11 / 2 ∧
    buildDamageDistribution [ExpressionComponent.dice 1 6 1, ExpressionComponent.const 2]
      2 none = .ok c3DistTwo ∧
    expectation c3DistTwo = 9 :=
  ⟨fun expression m t hden hpos => buildDamage_scale expression m t hden hpos,
    by with_unfolding_all rfl, by with_unfolding_all decide,
    by with_unfolding_all rfl, by with_unfolding_all decide⟩

theorem c3_witness :
    (2 : ℚ).den = 1 ∧ (0 : ℚ) < 2 ∧
      buildDamageDistribution [ExpressionComponent.dice 1 6 1, ExpressionComponent.const 2]
          2 none =
        buildDamageDistribution
          (scaleDiceCounts (2 : ℚ).num.toNat
            [ExpressionComponent.dice 1 6 1, ExpressionComponent.const 2]) 1 none :=
  ⟨by with_unfolding_all decide, by with_unfolding_all decide,
    c3_multiplier_scales_only_dice.1
      [ExpressionComponent.dice 1 6 1, ExpressionComponent.const 2] 2 none
      (by with_unfolding_all decide) (by with_unfolding_all decide)⟩

theorem scaled_entry_exp (l : List (ℤ × ℚ)) (c : ℚ) :
    ((l.map (fun e => (e.1, e.2 * c))).map (fun e => (e.1 : ℚ) * e.2)).sum =
      c * (l.map (fun e => (e.1 : ℚ) * e.2)).sum := by
  rw [List.map_map]
  have hfun : ((fun e : ℤ × ℚ => (e.1 : ℚ) * e.2) ∘ (fun e : ℤ × ℚ => (e.1, e.2 * c))) =
      fun e : ℤ × ℚ => c * ((e.1 : ℚ) * e.2) := by
    funext e
    simp only [Function.comp]
    ring
  rw [hfun, List.sum_map_mul_left]

theorem calculateAttackDamage_ok (request : AttackDamageRequest) (r : AttackDamageResult)
    (h : calculateAttackDamage request = .ok r) :
    Sorted r.totalDamageDistribution ∧
    r.expectedDamageOnHit = expectation r.hitDamageDistribution ∧
    r.expectedDamageOnCritical = expectation r.criticalDamageDistribution ∧
    r.expectedDamagePerAttack =
      r.probabilities.hit * r.expectedDamageOnHit +
        r.probabilities.critical * r.expectedDamageOnCritical ∧
    r.expectedDamagePerAttack = expectation r.totalDamageDistribution := by
  simp only [calculateAttackDamage] at h
  cases hp : calculateAttackOutcomeProbabilities request.attack with
  | error e =>
    rw [hp] at h
    simp only [bind, Except.bind] at h
    exact Except.noConfusion h
  | ok probs =>
    rw [hp] at h
    simp only [bind, Except.bind] at h
    cases hh : buildDamageDistribution (buildNonCriticalDamageModel request.damage).expression
        (buildNonCriticalDamageModel request.damage).criticalDiceMultiplier
        (buildNonCriticalDamageModel request.damage).rerollLowThreshold with
    | error e =>
      rw [hh] at h
      exact Except.noConfusion h
    | ok rawHit =>
      rw [hh] at h
      cases hc : buildDamageDistribution (buildCriticalDamageModel request.damage).expression
          (buildCriticalDamageModel request.damage).criticalDiceMultiplier
          (buildCriticalDamageModel request.damage).rerollLowThreshold with
      | error e =>
        rw [hc] at h
        exact Except.noConfusion h
      | ok rawCrit =>
        rw [hc] at h
        cases h
        refine ⟨normalize_sorted _, rfl, rfl, rfl, ?_⟩
        show probs.hit * expectation (applyModifierToDistribution
            (applyDamageDiceRollMode rawHit
              (resolveDiceRollMode request.damage.diceRollMode)
              (resolveDamageRollCount (resolveDiceRollMode request.damage.diceRollMode)
                request.damage.damageRollCount)) request.damage.modifier) +
          probs.critical * expectation (applyModifierToDistribution
            (applyDamageDiceRollMode rawCrit
              (resolveDiceRollMode request.damage.diceRollMode)
              (resolveDamageRollCount (resolveDiceRollMode request.damage.diceRollMode)
                request.damage.damageRollCount)) request.damage.modifier) = _
        rw [fromEntries, expectation_normalize, List.map_cons, List.sum_cons,
          List.map_append, List.sum_append, scaled_entry_exp, scaled_entry_exp]
        simp only [expectation]
        push_cast
        ring

/-- C4: for every request `calculateAttackDamage` accepts, the reported
expectedDamagePerAttack equals hit·expectedDamageOnHit +
critical·expectedDamageOnCritical (miss contributing 0), and this equals
the expectation of the returned combined totalDamageDistribution — an
exact identity here because the combining `fromEntries` only merges and
sorts, never prunes. -/
theorem c4_expected_damage_cross_check (request : AttackDamageRequest)
    (r : AttackDamageResult) (h : calculateAttackDamage request = .ok r) :
    r.expectedDamagePerAttack =
      r.probabilities.hit * r.expectedDamageOnHit +
        r.probabilities.critical * r.expectedDamageOnCritical ∧
      r.expectedDamagePerAttack = expectation r.totalDamageDistribution := by
  obtain ⟨_, _, _, h4, h5⟩ := calculateAttackDamage_ok request r h
  exact ⟨h4, h5⟩

theorem c4_witness :
    calculateAttackDamage exampleRequest = .ok exampleResult ∧
      (exampleResult.expectedDamagePerAttack =
          exampleResult.probabilities.hit * exampleResult.expectedDamageOnHit +
            exampleResult.probabilities.critical * exampleResult.expectedDamageOnCritical ∧
        exampleResult.expectedDamagePerAttack =
          expectation exampleResult.totalDamageDistribution) :=
  ⟨by with_unfolding_all rfl,
    c4_expected_damage_cross_check exampleRequest exampleResult
      (by with_unfolding_all rfl)⟩

theorem calculateAttackDamagePlan_eq (steps : List AttackDamagePlanStep) :
    calculateAttackDamagePlan steps =
      (steps.foldlM planFoldStep (constant 0, [])).bind (fun folded =>
        .ok { steps := folded.2
              totalDamageDistribution := folded.1
              expectedDamagePerPlan := expectation folded.1 }) := rfl

theorem plan_fold_invariant :
    ∀ (steps : List AttackDamagePlanStep) (pairs : List (ProbabilityDistribution × ℕ))
      (acc : ProbabilityDistribution) (accList : List AttackDamagePlanStepResult)
      (folded : ProbabilityDistribution × List AttackDamagePlanStepResult),
      planPairs steps = .ok pairs →
      Sorted acc → totalProbability acc = 1 →
      planCleanB acc pairs = true →
      steps.foldlM planFoldStep (acc, accList) = .ok folded →
      ∃ newList : List AttackDamagePlanStepResult,
        folded.2 = accList ++ newList ∧
        totalProbability folded.1 = 1 ∧
        expectation folded.1 =
          expectation acc + (newList.map (fun s => s.expectedDamageTotal)).sum ∧
        ∀ s ∈ newList,
          s.expectedDamageTotal = s.result.expectedDamagePerAttack * s.repeat' := by
  intro steps
  induction steps with
  | nil =>
    intro pairs acc accList folded hpairs hs ht hclean hfold
    simp only [planPairs] at hpairs
    cases hpairs
    simp only [List.foldlM_nil, pure, Except.pure] at hfold
    cases hfold
    exact ⟨[], by simp, ht, by simp, by simp⟩
  | cons step rest ih =>
    intro pairs acc accList folded hpairs hs ht hclean hfold
    simp only [planPairs] at hpairs
    cases hrep : normalizeStepRepeat step.repeat' with
    | error e =>
      rw [hrep] at hpairs
      simp only [bind, Except.bind] at hpairs
      exact Except.noConfusion hpairs
    | ok rep =>
      rw [hrep] at hpairs
      simp only [bind, Except.bind] at hpairs
      cases hres : calculateAttackDamage step.request with
      | error e =>
        rw [hres] at hpairs
        exact Except.noConfusion hpairs
      | ok result =>
        rw [hres] at hpairs
        cases hrest : planPairs rest with
        | error e =>
          rw [hrest] at hpairs
          exact Except.noConfusion hpairs
        | ok pairs' =>
          rw [hrest] at hpairs
          cases hpairs
          simp only [planCleanB, Bool.and_eq_true] at hclean
          obtain ⟨⟨⟨htot, hrc⟩, hcc⟩, hrest_clean⟩ := hclean
          have htot' : totalProbability result.totalDamageDistribution = 1 :=
            of_decide_eq_true htot
          have hsorted_d : Sorted result.totalDamageDistribution :=
            (calculateAttackDamage_ok step.request result hres).1
          have hEd : result.expectedDamagePerAttack =
              expectation result.totalDamageDistribution :=
            (calculateAttackDamage_ok step.request result hres).2.2.2.2
          obtain ⟨hRtot, hRexp⟩ :=
            repeatConvolve_clean result.totalDamageDistribution rep hsorted_d htot' hrc
          have hRsorted := repeatConvolve_sorted result.totalDamageDistribution rep
          have hacc_total : totalProbability
              (convolve acc (repeatConvolve result.totalDamageDistribution rep)) = 1 := by
            rw [totalProbability_convolve_clean acc _ hs hRsorted hcc, ht, hRtot]
            norm_num
          have hacc_exp : expectation
              (convolve acc (repeatConvolve result.totalDamageDistribution rep)) =
              expectation acc + (rep : ℚ) * expectation result.totalDamageDistribution := by
            rw [expectation_convolve_clean acc _ hs hRsorted hcc, ht, hRtot, hRexp]
            ring
          rw [List.foldlM_cons] at hfold
          have hstep : planFoldStep (acc, accList) step =
              .ok (convolve acc (repeatConvolve result.totalDamageDistribution rep),
                accList ++ [{ request := step.request
                              repeat' := rep
                              result := result
                              totalDamageDistribution :=
                                repeatConvolve result.totalDamageDistribution rep
                              expectedDamageTotal :=
                                result.expectedDamagePerAttack * rep }]) := by
            simp only [planFoldStep, hrep, hres]
            simp only [bind, Except.bind]
          rw [hstep] at hfold
          simp only [bind, Except.bind] at hfold
          obtain ⟨newList', h2, htot2, hexp2, hforall⟩ :=
            ih pairs' (convolve acc (repeatConvolve result.totalDamageDistribution rep))
              (accList ++ [_]) folded hrest (convolve_sorted _ _) hacc_total hrest_clean
              hfold
          refine ⟨{ request := step.request
                    repeat' := rep
                    result := result
                    totalDamageDistribution :=
                      repeatConvolve result.totalDamageDistribution rep
                    expectedDamageTotal :=
                      result.expectedDamagePerAttack * rep } :: newList', ?_, htot2, ?_, ?_⟩
          · rw [h2, List.append_assoc]
            rfl
          · rw [hexp2, hacc_exp, hEd, List.map_cons, List.sum_cons]
            ring
          · intro s hmem
            rcases List.mem_cons.mp hmem with hcase | hcase
            · subst hcase
              rfl
            · exact hforall s hcase

/-- C5 (corrected): for plan steps whose aggregation provably prunes
nothing (the decidable side condition `planCleanB` on the steps'
(total distribution, repeat) pairs), each step's expectedDamageTotal is
expectedDamagePerAttack × repeat, expectedDamagePerPlan is the
expectation of the convolved plan distribution, and that expectation
equals the sum of the steps' expectedDamageTotal values.  Without the
side condition the near-zero pruning inside the plan's
`repeatConvolve`/`convolve` breaks the additivity
(`c5_counterexample`). -/
theorem c5_plan_additivity (steps : List AttackDamagePlanStep)
    (pairs : List (ProbabilityDistribution × ℕ)) (result : AttackDamagePlanResult)
    (hpairs : planPairs steps = .ok pairs)
    (hclean : planCleanB (constant 0) pairs = true)
    (h : calculateAttackDamagePlan steps = .ok result) :
    result.expectedDamagePerPlan = expectation result.totalDamageDistribution ∧
    (∀ s ∈ result.steps,
      s.expectedDamageTotal = s.result.expectedDamagePerAttack * s.repeat') ∧
    result.expectedDamagePerPlan =
      (result.steps.map (fun s => s.expectedDamageTotal)).sum := by
  rw [calculateAttackDamagePlan_eq] at h
  cases hf : steps.foldlM planFoldStep (constant 0, []) with
  | error e =>
    rw [hf] at h
    simp only [bind, Except.bind] at h
    exact Except.noConfusion h
  | ok folded =>
    rw [hf] at h
    simp only [bind, Except.bind] at h
    cases h
    obtain ⟨newList, h2, _, hexp, hforall⟩ :=
      plan_fold_invariant steps pairs (constant 0) [] folded hpairs (constant_sorted 0)
        (totalProbability_constant 0) hclean hf
    refine ⟨rfl, ?_, ?_⟩
    · intro s hmem
      have : s ∈ newList := by
        rw [h2, List.nil_append] at hmem
        exact hmem
      exact hforall s this
    · show expectation folded.1 = ((folded.2).map (fun s => s.expectedDamageTotal)).sum
      rw [h2, List.nil_append, hexp, expectation_constant]
      simp

set_option maxRecDepth 16000 in
theorem c5_witness :
    planPairs planSteps = .ok planPairsVal ∧
      planCleanB (constant 0) planPairsVal = true ∧
      calculateAttackDamagePlan planSteps = .ok planResult ∧
      (∀ s ∈ planResult.steps,
        s.expectedDamageTotal = s.result.expectedDamagePerAttack * s.repeat') ∧
      planResult.expectedDamagePerPlan =
        (planResult.steps.map (fun s => s.expectedDamageTotal)).sum := by
  refine ⟨by with_unfolding_all rfl, by with_unfolding_all decide,
    by with_unfolding_all rfl, ?_, ?_⟩
  · exact (c5_plan_additivity planSteps planPairsVal planResult
      (by with_unfolding_all rfl) (by with_unfolding_all decide)
      (by with_unfolding_all rfl)).2.1
  · exact (c5_plan_additivity planSteps planPairsVal planResult
      (by with_unfolding_all rfl) (by with_unfolding_all decide)
      (by with_unfolding_all rfl)).2.2

set_option maxRecDepth 16000 in
/-- Counterexample to the literal C5: a valid one-step plan whose
expectedDamagePerPlan differs from the sum of the steps'
expectedDamageTotal values.  The step's total distribution carries an
entry of probability 2⁻⁵⁰ ≤ 1e-15, which the plan aggregation's dense
pass prunes, shifting the plan expectation from 2 − 2⁻⁵⁰ to 2 − 2⁻⁴⁹. -/
theorem c5_counterexample :
    calculateAttackDamagePlan cexPlanSteps = .ok cexPlanResult ∧
      (cexPlanResult.steps.map (fun s => s.expectedDamageTotal)).sum ≠
        cexPlanResult.expectedDamagePerPlan :=
  ⟨by with_unfolding_all rfl, by with_unfolding_all decide⟩

theorem resolveCount_intCast (mode : DamageDiceRollMode) (c : ℚ) :
    resolveDamageRollCount mode (some ((max 1 ⌊c⌋ : ℤ) : ℚ)) =
      resolveDamageRollCount mode (some c) := by
  rw [resolveDamageRollCount, resolveDamageRollCount, Int.floor_intCast, ← max_assoc,
    max_self]

theorem calculateAttackDamage_ext (a b : AttackDamageRequest)
    (h1 : a.attack = b.attack)
    (h2 : a.damage.expression = b.damage.expression)
    (h3 : a.damage.criticalDiceMultiplier = b.damage.criticalDiceMultiplier)
    (h4 : a.damage.modifier = b.damage.modifier)
    (h5 : resolveDiceRollMode a.damage.diceRollMode =
      resolveDiceRollMode b.damage.diceRollMode)
    (h6 : ∀ mode : DamageDiceRollMode,
      resolveDamageRollCount mode a.damage.damageRollCount =
        resolveDamageRollCount mode b.damage.damageRollCount)
    (h7 : a.damage.rerollLowThreshold = b.damage.rerollLowThreshold) :
    calculateAttackDamage a = calculateAttackDamage b := by
  simp only [calculateAttackDamage, buildNonCriticalDamageModel, buildCriticalDamageModel]
  rw [h1, h2, h3, h4, h6, h5, h7]

/-- Counterexample to the literal C7: a request whose damage model asks
for advantage on damage dice with the explicit non-integer count 1/2 is
accepted without any error — the count is silently coerced, never
rejected. -/
theorem c7_counterexample :
    c7Request.damage.diceRollMode = some DamageDiceRollMode.advantage ∧
      c7Request.damage.damageRollCount = some (1 / 2) ∧
      (1 / 2 : ℚ).den ≠ 1 ∧
      calculateAttackDamage c7Request = .ok c7Result :=
  ⟨rfl, rfl, by with_unfolding_all decide, by with_unfolding_all rfl⟩

/-- C7 (corrected): no invalid-argument error is raised for an explicit
damage-roll count.  `resolveDamageRollCount` silently coerces every
explicit count c to the positive integer max(1, ⌊c⌋)
(`c7_counterexample` shows an accepted non-integer count), and the
request behaves exactly as if that coerced count had been supplied; the
validation the spec describes exists only at the order-statistic
boundary `maxOfIndependentE`/`minOfIndependentE`, which does reject a
non-integer or non-positive count with a synchronous error. -/
theorem c7_roll_count_silently_coerced :
    (∀ (mode : DamageDiceRollMode) (c : ℚ),
      resolveDamageRollCount mode (some c) = (max 1 ⌊c⌋).toNat) ∧
    (∀ (request : AttackDamageRequest) (c : ℚ),
      calculateAttackDamage (withDamageRollCount request c) =
        calculateAttackDamage (withDamageRollCount request ((max 1 ⌊c⌋ : ℤ) : ℚ))) ∧
    (∀ (d : ProbabilityDistribution) (c : ℚ), ¬(c.den = 1 ∧ 0 < c) →
      maxOfIndependentE d c = .error "count must be a positive integer" ∧
        minOfIndependentE d c = .error "count must be a positive integer") := by
  refine ⟨fun mode c => rfl, fun request c => ?_, fun d c hc => ?_⟩
  · exact calculateAttackDamage_ext _ _ rfl rfl rfl rfl rfl
      (fun mode => (resolveCount_intCast mode c).symm) rfl
  · exact ⟨by rw [maxOfIndependentE, if_pos hc], by rw [minOfIndependentE, if_pos hc]⟩

theorem c7_witness :
    resolveDamageRollCount DamageDiceRollMode.advantage (some (1 / 2)) =
        (max 1 ⌊(1 / 2 : ℚ)⌋).toNat ∧
      calculateAttackDamage (withDamageRollCount c7Request (1 / 2)) =
        calculateAttackDamage
          (withDamageRollCount c7Request ((max 1 ⌊(1 / 2 : ℚ)⌋ : ℤ) : ℚ)) ∧
      ¬((1 / 2 : ℚ).den = 1 ∧ 0 < (1 / 2 : ℚ)) ∧
      maxOfIndependentE (uniformDie 2) (1 / 2) =
        .error "count must be a positive integer" :=
  ⟨c7_roll_count_silently_coerced.1 DamageDiceRollMode.advantage (1 / 2),
    c7_roll_count_silently_coerced.2.1 c7Request (1 / 2),
    by with_unfolding_all decide,
    (c7_roll_count_silently_coerced.2.2 (uniformDie 2) (1 / 2)
      (by with_unfolding_all decide)).1⟩

theorem c8_witness :
    applyDamageModifier 5 DamageModifier.resistant = 2 ∧
      applyDamageModifier 5 DamageModifier.vulnerable = 10 :=
  ⟨c8_apply_damage_modifier.2.1, c8_apply_damage_modifier.2.2.1⟩

theorem c9_witness :
    (calculateSaveExpectedDamage ⟨15, 5⟩ 10 4).saveFailProbability =
      1 - calculateSaveSuccessProbability ⟨15, 5⟩ :=
  (c9_save_formulas ⟨15, 5⟩ 10 4).2.2.1

end BG3Calc
